import Mathlib

/-!
Verification development for the indexed ring-buffer time wheel of the
`godot_ctb_game` repository.

The development shallowly embeds three program components:

* `TimeWheelSpec.Ctb` — the self-clocked wheel of
  `src/game_system/ctb/indexed_time_wheel.py` (`IndexedTimeWheel` with its own
  `total_ticks` counter, `_tick`, `advance_to_next_event`).
* `TimeWheelSpec.Cbw` — the callback-clocked wheel of
  `src/game_system/indexed_time_wheel/indexed_time_wheel.py` (`IndexedTimeWheel`
  whose current time comes from a `get_time` callback; `advance_wheel`,
  `has_any_events`).  The callback is embedded as an explicit `now` argument,
  and the driver `game_world._advance_tick` (advance the clock by one, then
  call `advance_wheel`) is embedded as `gwStep`.
* `TimeWheelSpec.Tw` — the plain `TimeWheel` of
  `src/game_system/ctb/time_wheel.py` (only the parts needed here:
  `_is_current_slot_empty` and `_tick`).
* `TimeWheelSpec.Mgr` — `CTBManager.initialize_ctb` of
  `src/game_system/ctb_manager/ctb_manager.py`, with the wheel callbacks
  recorded as an explicit schedule log.

Python `dict`s are embedded as association lists in insertion order; Python
`assert` / `raise` are embedded by returning the (unchanged or partially
mutated, matching the source) state together with an `Option` error code.
-/

namespace TimeWheelSpec

/-- Event node stored in an indexed time wheel (`_EventNode`): a key, a
payload value, the slot currently holding the node (`slot_index = -1` means
the node lives in the far-future `future_events` list) and the absolute hour
at which it is due. -/
structure EventNode (K V : Type) where
  key : K
  value : V
  slot_index : Int
  absolute_hour : Nat
deriving Repr, DecidableEq

variable {K V : Type} [DecidableEq K]

/-- `index.get(key)` / `key in index` on the insertion-ordered dictionary:
the first (and, with distinct keys, only) entry whose key matches. -/
def idxLookup : List (K × EventNode K V) → K → Option (EventNode K V)
  | [], _ => none
  | (k, n) :: rest, key => if k = key then some n else idxLookup rest key

/-- `del index[key]`: drop the first entry whose key matches. -/
def idxErase : List (K × EventNode K V) → K → List (K × EventNode K V)
  | [], _ => []
  | (k, n) :: rest, key => if k = key then rest else (k, n) :: idxErase rest key

/-- In-place mutation of the node object held by the dictionary (the Python
code mutates `node.slot_index`; the dictionary keeps its position). -/
def idxSet : List (K × EventNode K V) → K → EventNode K V → List (K × EventNode K V)
  | [], _, _ => []
  | (k, n) :: rest, key, m => if k = key then (k, m) :: rest else (k, n) :: idxSet rest key m

/-- Drop the first occurrence of `k` from a list of keys (the key-level
shadow of `idxErase` and of the overflow removal loop). -/
def eraseKey (k : K) : List K → List K
  | [] => []
  | x :: rest => if x = k then rest else x :: eraseKey k rest

/-- Insertion position computed by the backward scan of
`_insert_future_event`: one past the last entry whose hour is `≤ h`, and `0`
when every entry's hour exceeds `h` (also for the empty list). -/
def insertPos (h : Nat) : List (Nat × EventNode K V) → Nat
  | [] => 0
  | (h', _) :: rest =>
      let r := insertPos h rest
      if r = 0 then (if h' ≤ h then 1 else 0) else r + 1

/-- `_insert_future_event`: insert `(h, n)` at the position found by the
backward scan, keeping the list sorted by hour and stable among equal hours. -/
def insertFutureEvent (fe : List (Nat × EventNode K V)) (h : Nat) (n : EventNode K V) :
    List (Nat × EventNode K V) :=
  fe.insertIdx (insertPos h fe) (h, n)

/-- Errors raised by the scheduling entry points (`AssertionError`s in the
Python source). -/
inductive SchedError
  | duplicate_key
  | negative_delay
  | past_time
deriving Repr, DecidableEq

namespace Ctb

/-- State of `game_system/ctb/indexed_time_wheel.py`'s `IndexedTimeWheel`. -/
structure IndexedTimeWheel (K V : Type) where
  buffer_size : Nat
  slots : List (List (EventNode K V))
  offset : Nat
  total_ticks : Nat
  index : List (K × EventNode K V)
  future_events : List (Nat × EventNode K V)
deriving Repr, DecidableEq

variable {K V : Type} [DecidableEq K]

/-- `IndexedTimeWheel(buffer_size)`; the constructor asserts
`buffer_size > 0`, which theorems carry as a hypothesis. -/
def init (K V : Type) (buffer_size : Nat) : IndexedTimeWheel K V :=
  { buffer_size := buffer_size
    slots := List.replicate buffer_size []
    offset := 0
    total_ticks := 0
    index := []
    future_events := [] }

/-- `self.slots[i]` (always in range in the source, where
`offset = total_ticks % buffer_size < len(slots)`). -/
def slotAt (s : IndexedTimeWheel K V) (i : Nat) : List (EventNode K V) :=
  s.slots.getD i []

/-- `_is_current_slot_empty`. -/
def is_current_slot_empty (s : IndexedTimeWheel K V) : Bool :=
  (slotAt s s.offset).isEmpty

/-- `schedule_with_delay(key, value, delay)`: asserts the key is fresh and
the delay non-negative, then either inserts into `future_events` (delay at or
beyond the horizon) or appends to slot `(offset + delay) % buffer_size`. -/
def schedule_with_delay (s : IndexedTimeWheel K V) (key : K) (value : V) (delay : Int) :
    IndexedTimeWheel K V × Option SchedError :=
  if (idxLookup s.index key).isSome then (s, some .duplicate_key)
  else if delay < 0 then (s, some .negative_delay)
  else
    let d := delay.toNat
    let absolute_hour := s.total_ticks + d
    if d ≥ s.buffer_size then
      let node : EventNode K V := ⟨key, value, -1, absolute_hour⟩
      ({ s with
          future_events := insertFutureEvent s.future_events absolute_hour node
          index := s.index ++ [(key, node)] }, none)
    else
      let target := (s.offset + d) % s.buffer_size
      let node : EventNode K V := ⟨key, value, Int.ofNat target, absolute_hour⟩
      ({ s with
          slots := s.slots.set target (slotAt s target ++ [node])
          index := s.index ++ [(key, node)] }, none)

/-- `schedule_at_absolute_hour(key, value, absolute_hour)`: asserts the hour
is not in the past, then delegates with `delay = absolute_hour - total_ticks`. -/
def schedule_at_absolute_hour (s : IndexedTimeWheel K V) (key : K) (value : V)
    (absolute_hour : Int) : IndexedTimeWheel K V × Option SchedError :=
  if absolute_hour < (s.total_ticks : Int) then (s, some .past_time)
  else schedule_with_delay s key value (absolute_hour - (s.total_ticks : Int))

/-- `pop_due_event()`: pop the head of the current slot and drop its key from
the index (`None` when the current slot is empty). -/
def pop_due_event (s : IndexedTimeWheel K V) : Option (K × V) × IndexedTimeWheel K V :=
  match slotAt s s.offset with
  | [] => (none, s)
  | n :: rest =>
      (some (n.key, n.value),
       { s with
          slots := s.slots.set s.offset rest
          index := idxErase s.index n.key })

/-- The promotion loop of `_tick`: while the head of `future_events` has
`absolute_hour ≤ total_ticks`, pop it, point its `slot_index` at
`(offset - 1) % buffer_size` (Python modulo on a possibly negative value) and
append it there.  The index sees the new `slot_index` through the shared node
object, embedded as `idxSet`. -/
def promote (total_ticks off bs : Nat) :
    List (Nat × EventNode K V) → List (List (EventNode K V)) → List (K × EventNode K V) →
    List (Nat × EventNode K V) × List (List (EventNode K V)) × List (K × EventNode K V)
  | [], slots, index => ([], slots, index)
  | (h, n) :: rest, slots, index =>
      if h ≤ total_ticks then
        let target := (((off : Int) - 1) % (bs : Int)).toNat
        let n' := { n with slot_index := Int.ofNat target }
        promote total_ticks off bs rest
          (slots.set target (slots.getD target [] ++ [n']))
          (idxSet index n.key n')
      else ((h, n) :: rest, slots, index)

/-- `_tick()`: increment `total_ticks`, recompute `offset`, then promote the
due heads of `future_events`.  (The trailing `assert` of the source, that the
remaining head is strictly in the future, holds by the loop's exit condition.) -/
def tick (s : IndexedTimeWheel K V) : IndexedTimeWheel K V :=
  let total := s.total_ticks + 1
  let off := total % s.buffer_size
  let r := promote total off s.buffer_size s.future_events s.slots s.index
  { s with
      total_ticks := total
      offset := off
      future_events := r.1
      slots := r.2.1
      index := r.2.2 }

/-- The bounded scan of `advance_to_next_event`, with explicit fuel for the
`for _ in range(buffer_size)` loop; `none` is the `RuntimeError` raised after
a full cycle (the ticked state persists, as it does across a Python `raise`). -/
def advanceGo : Nat → IndexedTimeWheel K V → Nat → IndexedTimeWheel K V × Option Nat
  | 0, s, _ => (s, none)
  | fuel + 1, s, t =>
      if is_current_slot_empty s then advanceGo fuel (tick s) (t + 1)
      else (s, some t)

/-- `advance_to_next_event()`: tick until the current slot is non-empty,
giving up (with a `RuntimeError`, embedded as `none`) after `buffer_size`
inspections. -/
def advance_to_next_event (s : IndexedTimeWheel K V) :
    IndexedTimeWheel K V × Option Nat :=
  advanceGo s.buffer_size s 0

/-- The linear search of `remove` over `future_events`: drop the first entry
whose node has the given key (no-op when none matches). -/
def eraseFutureKey (key : K) : List (Nat × EventNode K V) → List (Nat × EventNode K V)
  | [] => []
  | (h, n) :: rest => if n.key = key then rest else (h, n) :: eraseFutureKey key rest

/-- `remove(key)`: `None` for an absent key; otherwise delete the node from
`future_events` (when `slot_index == -1`) or filter it out of its slot, and
drop the key from the index. -/
def remove (s : IndexedTimeWheel K V) (key : K) : Option V × IndexedTimeWheel K V :=
  match idxLookup s.index key with
  | none => (none, s)
  | some node =>
      if node.slot_index = -1 then
        (some node.value,
         { s with
            future_events := eraseFutureKey key s.future_events
            index := idxErase s.index key })
      else
        let t := node.slot_index.toNat
        (some node.value,
         { s with
            slots := s.slots.set t ((s.slots.getD t []).filter fun m => decide (m.key ≠ key))
            index := idxErase s.index key })

/-- `get(key)`. -/
def get (s : IndexedTimeWheel K V) (key : K) : Option V :=
  (idxLookup s.index key).map (·.value)

/-- `__contains__`. -/
def containsKey (s : IndexedTimeWheel K V) (key : K) : Bool :=
  (idxLookup s.index key).isSome

/-- `__len__`. -/
def size (s : IndexedTimeWheel K V) : Nat :=
  s.index.length

/-- Call `pop_due_event` up to `n` times, collecting the popped pairs in
order and stopping at the first `None`. -/
def popMany : Nat → IndexedTimeWheel K V → List (K × V)
  | 0, _ => []
  | n + 1, s =>
      match pop_due_event s with
      | (none, _) => []
      | (some p, s2) => p :: popMany n s2

/-- Every node physically stored in the structure: wheel slots front to back,
then the overflow list. -/
def allNodes (s : IndexedTimeWheel K V) : List (EventNode K V) :=
  s.slots.flatten ++ s.future_events.map (·.2)

/-- A tick-or-pop step, the operations quantified over by the
schedule-then-cancel round-trip claim. -/
inductive TPOp
  | tickOp
  | popOp
deriving Repr, DecidableEq

/-- Run a list of tick/pop steps, collecting every pair returned by the
pops. -/
def runTP (s : IndexedTimeWheel K V) : List TPOp → IndexedTimeWheel K V × List (K × V)
  | [] => (s, [])
  | .tickOp :: rest => runTP (tick s) rest
  | .popOp :: rest =>
      match pop_due_event s with
      | (none, s2) => runTP s2 rest
      | (some p, s2) =>
          let r := runTP s2 rest
          (r.1, p :: r.2)

/-- One public operation of the wheel, for quantifying over operation
sequences. -/
inductive Op (K V : Type)
  | sched (k : K) (v : V) (d : Int)
  | schedAbs (k : K) (v : V) (h : Int)
  | popOp
  | rem (k : K)
  | tickOp

/-- The state after one operation (an operation that raises leaves the state
it produced — unchanged for the scheduling asserts, which fire before any
mutation). -/
def runOp (s : IndexedTimeWheel K V) : Op K V → IndexedTimeWheel K V
  | .sched k v d => (schedule_with_delay s k v d).1
  | .schedAbs k v h => (schedule_at_absolute_hour s k v h).1
  | .popOp => (pop_due_event s).2
  | .rem k => (remove s k).2
  | .tickOp => tick s

/-- The state after a sequence of operations. -/
def runOps (s : IndexedTimeWheel K V) : List (Op K V) → IndexedTimeWheel K V
  | [] => s
  | op :: rest => runOps (runOp s op) rest

/-- The location recorded in a node is accurate: the node is in the overflow
list when `slot_index = -1`, and otherwise in the in-range wheel slot
`slot_index` points at (stated over raw components so it also serves as the
promotion-loop invariant). -/
def LocCore (bs : Nat) (slots : List (List (EventNode K V)))
    (fe : List (Nat × EventNode K V)) (n : EventNode K V) : Prop :=
  (n.slot_index = -1 ∧ n.key ∈ fe.map (·.2.key)) ∨
  (0 ≤ n.slot_index ∧ n.slot_index.toNat < bs ∧
    n.key ∈ (slots.getD n.slot_index.toNat []).map (·.key))

/-- Well-formedness of the slot array, index and overflow list: `bs` slots,
the index keys are exactly the keys of the stored nodes (as a multiset),
they are pairwise distinct, every index entry maps a key to a node carrying
that key, and every indexed node is where its `slot_index` says. -/
def WFcore (bs : Nat) (slots : List (List (EventNode K V)))
    (index : List (K × EventNode K V)) (fe : List (Nat × EventNode K V)) : Prop :=
  slots.length = bs ∧
  List.Perm (index.map (·.1)) (slots.flatten.map (·.key) ++ fe.map (·.2.key)) ∧
  (index.map (·.1)).Nodup ∧
  (∀ p ∈ index, p.2.key = p.1) ∧
  (∀ p ∈ index, LocCore bs slots fe p.2)

/-- Well-formedness of a wheel state. -/
def WF (s : IndexedTimeWheel K V) : Prop :=
  0 < s.buffer_size ∧
  s.offset < s.buffer_size ∧
  WFcore s.buffer_size s.slots s.index s.future_events

end Ctb

namespace Cbw

/-- State of `game_system/indexed_time_wheel/indexed_time_wheel.py`'s
`IndexedTimeWheel`; the current time is not stored but obtained from the
`get_time` callback, embedded as an explicit `now` argument on every
operation that calls it. -/
structure IndexedTimeWheel (K V : Type) where
  buffer_size : Nat
  slots : List (List (EventNode K V))
  offset : Nat
  index : List (K × EventNode K V)
  future_events : List (Nat × EventNode K V)
deriving Repr, DecidableEq

variable {K V : Type} [DecidableEq K]

/-- `IndexedTimeWheel(buffer_size, get_time_callback)`; the constructor
asserts `buffer_size > 0`. -/
def init (K V : Type) (buffer_size : Nat) : IndexedTimeWheel K V :=
  { buffer_size := buffer_size
    slots := List.replicate buffer_size []
    offset := 0
    index := []
    future_events := [] }

/-- `self.slots[i]`. -/
def slotAt (s : IndexedTimeWheel K V) (i : Nat) : List (EventNode K V) :=
  s.slots.getD i []

/-- `_is_current_slot_empty`. -/
def is_current_slot_empty (s : IndexedTimeWheel K V) : Bool :=
  (slotAt s s.offset).isEmpty

/-- `schedule_with_delay(key, value, delay)` with `now = get_time()`. -/
def schedule_with_delay (now : Nat) (s : IndexedTimeWheel K V) (key : K) (value : V)
    (delay : Int) : IndexedTimeWheel K V × Option SchedError :=
  if (idxLookup s.index key).isSome then (s, some .duplicate_key)
  else if delay < 0 then (s, some .negative_delay)
  else
    let d := delay.toNat
    let absolute_hour := now + d
    if d ≥ s.buffer_size then
      let node : EventNode K V := ⟨key, value, -1, absolute_hour⟩
      ({ s with
          future_events := insertFutureEvent s.future_events absolute_hour node
          index := s.index ++ [(key, node)] }, none)
    else
      let target := (s.offset + d) % s.buffer_size
      let node : EventNode K V := ⟨key, value, Int.ofNat target, absolute_hour⟩
      ({ s with
          slots := s.slots.set target (slotAt s target ++ [node])
          index := s.index ++ [(key, node)] }, none)

/-- `pop_due_event()`. -/
def pop_due_event (s : IndexedTimeWheel K V) : Option (K × V) × IndexedTimeWheel K V :=
  match slotAt s s.offset with
  | [] => (none, s)
  | n :: rest =>
      (some (n.key, n.value),
       { s with
          slots := s.slots.set s.offset rest
          index := idxErase s.index n.key })

/-- Errors of `advance_wheel` (`AssertionError`s in the source): the entry
assertion that the current slot is empty, and the in-loop assertion that a
promoted entry's hour is exactly `get_time() + buffer_size - 1`. -/
inductive AdvError
  | slot_not_empty
  | promote_mismatch
deriving Repr, DecidableEq

/-- The promotion loop of `advance_wheel`: while the head of `future_events`
has `absolute_hour ≤ now + buffer_size - 1`, pop it, assert its hour equals
`now + buffer_size - 1` exactly (on failure the entry is already popped, as
after the Python `assert`), and append it to slot
`(offset - 1 + buffer_size) % buffer_size`. -/
def promote (now off bs : Nat) :
    List (Nat × EventNode K V) → List (List (EventNode K V)) → List (K × EventNode K V) →
    (List (Nat × EventNode K V) × List (List (EventNode K V)) × List (K × EventNode K V))
      × Option AdvError
  | [], slots, index => (([], slots, index), none)
  | (h, n) :: rest, slots, index =>
      if h ≤ now + bs - 1 then
        if h = now + bs - 1 then
          let target := (((off : Int) - 1 + (bs : Int)) % (bs : Int)).toNat
          let n' := { n with slot_index := Int.ofNat target }
          promote now off bs rest
            (slots.set target (slots.getD target [] ++ [n']))
            (idxSet index n.key n')
        else ((rest, slots, index), some .promote_mismatch)
      else (((h, n) :: rest, slots, index), none)

/-- `advance_wheel()`: assert the current slot is empty (before any mutation),
advance `offset` by one, then promote the entries that just entered the
horizon.  (The trailing assertion of the source, that the remaining head lies
strictly beyond `get_time()`, holds by the loop's exit condition whenever
`buffer_size > 0`.) -/
def advance_wheel (now : Nat) (s : IndexedTimeWheel K V) :
    IndexedTimeWheel K V × Option AdvError :=
  if ¬ is_current_slot_empty s then (s, some .slot_not_empty)
  else
    let off := (s.offset + 1) % s.buffer_size
    let r := promote now off s.buffer_size s.future_events s.slots s.index
    ({ s with
        offset := off
        future_events := r.1.1
        slots := r.1.2.1
        index := r.1.2.2 }, r.2)

/-- `remove(key)` (same eager deletion as the `Ctb` variant). -/
def remove (s : IndexedTimeWheel K V) (key : K) : Option V × IndexedTimeWheel K V :=
  match idxLookup s.index key with
  | none => (none, s)
  | some node =>
      if node.slot_index = -1 then
        (some node.value,
         { s with
            future_events := Ctb.eraseFutureKey key s.future_events
            index := idxErase s.index key })
      else
        let t := node.slot_index.toNat
        (some node.value,
         { s with
            slots := s.slots.set t ((s.slots.getD t []).filter fun m => decide (m.key ≠ key))
            index := idxErase s.index key })

/-- `get(key)`. -/
def get (s : IndexedTimeWheel K V) (key : K) : Option V :=
  (idxLookup s.index key).map (·.value)

/-- `__contains__`. -/
def containsKey (s : IndexedTimeWheel K V) (key : K) : Bool :=
  (idxLookup s.index key).isSome

/-- `__len__`. -/
def size (s : IndexedTimeWheel K V) : Nat :=
  s.index.length

/-- `has_any_events()`: the source returns `True` unconditionally (its body is
`return True` with a TODO to implement a real check). -/
def has_any_events (_s : IndexedTimeWheel K V) : Bool :=
  true

/-- One driver step of `game_world._advance_tick`: advance the calendar (the
time source) by one tick, then call `advance_wheel` with the new time. -/
def gwStep (p : Nat × IndexedTimeWheel K V) :
    (Nat × IndexedTimeWheel K V) × Option AdvError :=
  let now := p.1 + 1
  let r := advance_wheel now p.2
  ((now, r.1), r.2)

/-- Run `n` driver steps, stopping at the first assertion failure. -/
def gwRun : Nat → (Nat × IndexedTimeWheel K V) × Option AdvError →
    (Nat × IndexedTimeWheel K V) × Option AdvError
  | 0, st => st
  | n + 1, (p, e) =>
      match e with
      | some err => (p, some err)
      | none => gwRun n (gwStep p)

end Cbw

namespace Tw

/-- The slice of `game_system/ctb/time_wheel.py`'s `TimeWheel` needed here:
each slot is the doubly-linked list read off as a front-to-back list; the
claims about it concern only `_is_current_slot_empty` and `_tick`. -/
structure TimeWheel (V : Type) where
  buffer_size : Nat
  slots : List (List V)
  offset : Nat
  total_ticks : Nat
deriving Repr, DecidableEq

variable {V : Type}

/-- `TimeWheel(buffer_size)` (raises `ValueError` on a non-positive size,
carried as a hypothesis). -/
def init (V : Type) (buffer_size : Nat) : TimeWheel V :=
  { buffer_size := buffer_size
    slots := List.replicate buffer_size []
    offset := 0
    total_ticks := 0 }

/-- `_is_current_slot_empty`. -/
def is_current_slot_empty (s : TimeWheel V) : Bool :=
  (s.slots.getD s.offset []).isEmpty

/-- `_tick()`: raise `RuntimeError` (before touching any field) when the
current slot is non-empty; otherwise increment `total_ticks` and recompute
`offset`. -/
def tick (s : TimeWheel V) : TimeWheel V × Option Unit :=
  if ¬ is_current_slot_empty s then (s, some ())
  else
    let total := s.total_ticks + 1
    ({ s with total_ticks := total, offset := total % s.buffer_size }, none)

end Tw

namespace Mgr

/-- The slice of `CTBManager` (`game_system/ctb_manager/ctb_manager.py`)
needed for `initialize_ctb`: the character table in insertion order (each
character carries its `is_active` flag and its `calculate_next_action_time`
result, the latter embedded as a supplied next-time function), the
`is_initialized` flag, and a log of the `schedule_callback(id, char, delay)`
calls made to the time wheel. -/
structure CTBManager (C : Type) where
  characters : List (String × C)
  is_initialized : Bool
  schedule_log : List (String × C × Nat)
deriving Repr, DecidableEq

variable {C : Type}

/-- `initialize_ctb()`: raise `ValueError` (before any mutation) when there
are no characters; otherwise schedule every active character at the delay
given by its next-action time and set `is_initialized`.  `is_active` and
`calculate_next_action_time` are the collaborator contracts of the character
payload, passed as functions; `now` is `get_time_callback()`. -/
def initialize_ctb (is_active : C → Bool) (next_time : C → Nat → Nat) (now : Nat)
    (m : CTBManager C) : CTBManager C × Option Unit :=
  if m.characters.isEmpty then (m, some ())
  else
    ({ m with
        schedule_log := m.schedule_log ++
          (m.characters.filter (fun p => is_active p.2)).map
            (fun p => (p.1, p.2, next_time p.2 now - now))
        is_initialized := true }, none)

end Mgr

/-! ## Helper lemmas on keys, association lists and the slot array -/

theorem eraseKey_of_not_mem {m : List K} {k : K} (h : k ∉ m) : eraseKey k m = m := by
  induction m with
  | nil => rfl
  | cons x rest ih =>
      have hxk : x ≠ k := by
        intro hx
        exact h (hx ▸ List.mem_cons_self x rest)
      rw [eraseKey, if_neg hxk, ih (fun hk => h (List.mem_cons_of_mem x hk))]

theorem perm_cons_eraseKey {m : List K} {k : K} (h : k ∈ m) :
    List.Perm m (k :: eraseKey k m) := by
  induction m with
  | nil => cases h
  | cons x rest ih =>
      by_cases hxk : x = k
      · subst hxk
        rw [eraseKey, if_pos rfl]
      · rw [eraseKey, if_neg hxk]
        have hk : k ∈ rest := by
          rcases List.mem_cons.mp h with h1 | h1
          · exact absurd h1.symm hxk
          · exact h1
        exact ((ih hk).cons x).trans (List.Perm.swap k x (eraseKey k rest))

theorem eraseKey_sublist (k : K) (m : List K) : (eraseKey k m).Sublist m := by
  induction m with
  | nil => exact List.Sublist.refl []
  | cons x rest ih =>
      by_cases hxk : x = k
      · rw [eraseKey, if_pos hxk]
        exact (List.sublist_cons_self x rest)
      · rw [eraseKey, if_neg hxk]
        exact ih.cons₂ x

theorem not_mem_eraseKey {m : List K} {k : K} (hnd : m.Nodup) : k ∉ eraseKey k m := by
  induction m with
  | nil => simp [eraseKey]
  | cons x rest ih =>
      rcases List.nodup_cons.mp hnd with ⟨hx, hrest⟩
      by_cases hxk : x = k
      · rw [eraseKey, if_pos hxk]
        exact hxk ▸ hx
      · rw [eraseKey, if_neg hxk]
        intro hk
        rcases List.mem_cons.mp hk with h1 | h1
        · exact hxk h1.symm
        · exact ih hrest h1

theorem length_eraseKey {m : List K} {k : K} (h : k ∈ m) :
    (eraseKey k m).length + 1 = m.length := by
  have := (perm_cons_eraseKey h).length_eq
  simpa using this.symm

theorem idxLookup_eq_none_iff {l : List (K × EventNode K V)} {k : K} :
    idxLookup l k = none ↔ k ∉ l.map (·.1) := by
  induction l with
  | nil => simp [idxLookup]
  | cons p rest ih =>
      obtain ⟨k', n⟩ := p
      by_cases hk : k' = k
      · subst hk
        simp [idxLookup]
      · simp [idxLookup, hk, ih, Ne.symm hk]

theorem idxLookup_isSome_iff {l : List (K × EventNode K V)} {k : K} :
    (idxLookup l k).isSome = true ↔ k ∈ l.map (·.1) := by
  rcases hl : idxLookup l k with _ | n
  · simpa [hl] using idxLookup_eq_none_iff.mp hl
  · simp only [Option.isSome_some, true_iff]
    by_contra hmem
    rw [idxLookup_eq_none_iff.mpr hmem] at hl
    cases hl

theorem idxLookup_append_self {l : List (K × EventNode K V)} {k : K}
    (n : EventNode K V) (h : idxLookup l k = none) :
    idxLookup (l ++ [(k, n)]) k = some n := by
  induction l with
  | nil => simp [idxLookup]
  | cons p rest ih =>
      obtain ⟨k', m⟩ := p
      by_cases hk : k' = k
      · rw [idxLookup, if_pos hk] at h
        cases h
      · rw [idxLookup, if_neg hk] at h
        rw [List.cons_append, idxLookup, if_neg hk]
        exact ih h

theorem idxLookup_append_of_ne {l : List (K × EventNode K V)} {k k' : K}
    (n : EventNode K V) (h : k' ≠ k) :
    idxLookup (l ++ [(k', n)]) k = idxLookup l k := by
  induction l with
  | nil => simp [idxLookup, h]
  | cons p rest ih =>
      obtain ⟨k'', m⟩ := p
      by_cases hk : k'' = k
      · simp [idxLookup, hk]
      · simp [idxLookup, hk, ih]

theorem idxErase_map_fst (l : List (K × EventNode K V)) (k : K) :
    (idxErase l k).map (·.1) = eraseKey k (l.map (·.1)) := by
  induction l with
  | nil => rfl
  | cons p rest ih =>
      obtain ⟨k', n⟩ := p
      by_cases hk : k' = k
      · simp [idxErase, eraseKey, hk]
      · simp [idxErase, eraseKey, hk, ih]

theorem idxErase_of_none {l : List (K × EventNode K V)} {k : K}
    (h : idxLookup l k = none) : idxErase l k = l := by
  induction l with
  | nil => rfl
  | cons p rest ih =>
      obtain ⟨k', n⟩ := p
      by_cases hk : k' = k
      · rw [idxLookup, if_pos hk] at h
        cases h
      · rw [idxLookup, if_neg hk] at h
        rw [idxErase, if_neg hk, ih h]

theorem idxErase_append {l : List (K × EventNode K V)} {k : K} {n : EventNode K V}
    (h : idxLookup l k = none) : idxErase (l ++ [(k, n)]) k = l := by
  induction l with
  | nil => simp [idxErase]
  | cons p rest ih =>
      obtain ⟨k', m⟩ := p
      by_cases hk : k' = k
      · rw [idxLookup, if_pos hk] at h
        cases h
      · rw [idxLookup, if_neg hk] at h
        rw [List.cons_append, idxErase, if_neg hk, ih h]

theorem idxSet_map_fst (l : List (K × EventNode K V)) (k : K) (m : EventNode K V) :
    (idxSet l k m).map (·.1) = l.map (·.1) := by
  induction l with
  | nil => rfl
  | cons p rest ih =>
      obtain ⟨k', n⟩ := p
      by_cases hk : k' = k
      · simp [idxSet, hk]
      · simp [idxSet, hk, ih]

theorem mem_of_idxLookup {l : List (K × EventNode K V)} {k : K} {n : EventNode K V}
    (h : idxLookup l k = some n) : (k, n) ∈ l := by
  induction l with
  | nil => cases h
  | cons p rest ih =>
      obtain ⟨k', m⟩ := p
      by_cases hk : k' = k
      · rw [idxLookup, if_pos hk] at h
        cases h
        exact hk ▸ List.mem_cons_self _ _
      · rw [idxLookup, if_neg hk] at h
        exact List.mem_cons_of_mem _ (ih h)

theorem mem_idxErase {l : List (K × EventNode K V)} {k : K} {p : K × EventNode K V}
    (h : p ∈ idxErase l k) : p ∈ l := by
  induction l with
  | nil => cases h
  | cons q rest ih =>
      obtain ⟨k', n⟩ := q
      by_cases hk : k' = k
      · rw [idxErase, if_pos hk] at h
        exact List.mem_cons_of_mem _ h
      · rw [idxErase, if_neg hk] at h
        rcases List.mem_cons.mp h with h1 | h1
        · exact h1 ▸ List.mem_cons_self _ _
        · exact List.mem_cons_of_mem _ (ih h1)

theorem mem_idxSet_cases {l : List (K × EventNode K V)} {k : K} {m : EventNode K V}
    {p : K × EventNode K V} (hnd : (l.map (·.1)).Nodup) (hp : p ∈ idxSet l k m) :
    p = (k, m) ∨ (p ∈ l ∧ p.1 ≠ k) := by
  induction l with
  | nil => cases hp
  | cons q rest ih =>
      obtain ⟨k', n⟩ := q
      rw [List.map_cons, List.nodup_cons] at hnd
      by_cases hk : k' = k
      · subst hk
        rw [idxSet, if_pos rfl] at hp
        rcases List.mem_cons.mp hp with h1 | h1
        · exact Or.inl h1
        · refine Or.inr ⟨List.mem_cons_of_mem _ h1, ?_⟩
          intro hpk
          exact hnd.1 (hpk ▸ List.mem_map_of_mem (·.1) h1)
      · rw [idxSet, if_neg hk] at hp
        rcases List.mem_cons.mp hp with h1 | h1
        · exact Or.inr ⟨h1 ▸ List.mem_cons_self _ _, by simp [h1, hk]⟩
        · rcases ih hnd.2 h1 with h2 | h2
          · exact Or.inl h2
          · exact Or.inr ⟨List.mem_cons_of_mem _ h2.1, h2.2⟩

theorem idxLookup_idxErase_self {l : List (K × EventNode K V)} {k : K}
    (hnd : (l.map (·.1)).Nodup) : idxLookup (idxErase l k) k = none := by
  rw [idxLookup_eq_none_iff, idxErase_map_fst]
  exact not_mem_eraseKey hnd

theorem countP_key_map (l : List (EventNode K V)) (k : K) :
    l.countP (fun n => decide (n.key = k))
      = (l.map (·.key)).countP (fun x => decide (x = k)) := by
  rw [List.countP_map]
  rfl

theorem countP_eq_ite_of_nodup {m : List K} (hnd : m.Nodup) (k : K) :
    m.countP (fun x => decide (x = k)) = if k ∈ m then 1 else 0 := by
  induction m with
  | nil => simp
  | cons x rest ih =>
      rcases List.nodup_cons.mp hnd with ⟨hx, hrest⟩
      rw [List.countP_cons]
      by_cases hxk : x = k
      · subst hxk
        rw [ih hrest, if_neg hx]
        simp
      · rw [ih hrest]
        by_cases hk : k ∈ rest
        · simp [hk, hxk, Ne.symm hxk]
        · simp [hk, hxk, Ne.symm hxk]

theorem insertPos_le (h : Nat) (fe : List (Nat × EventNode K V)) :
    insertPos h fe ≤ fe.length := by
  induction fe with
  | nil => simp [insertPos]
  | cons p rest ih =>
      obtain ⟨h1, n1⟩ := p
      show (if insertPos h rest = 0 then (if h1 ≤ h then 1 else 0)
        else insertPos h rest + 1) ≤ rest.length + 1
      split
      · split <;> omega
      · omega

theorem insertFutureEvent_perm (fe : List (Nat × EventNode K V)) (h : Nat)
    (n : EventNode K V) :
    List.Perm (insertFutureEvent fe h n) ((h, n) :: fe) :=
  List.perm_insertIdx _ _ (insertPos_le h fe)

theorem flatten_decomp {α : Type} (l : List (List α)) {t : Nat} (ht : t < l.length) :
    l.flatten = (l.take t).flatten ++ l.getD t [] ++ (l.drop (t + 1)).flatten := by
  conv_lhs => rw [← List.take_append_drop t l]
  rw [List.flatten_append, ← List.getElem_cons_drop l t ht, List.flatten_cons,
    List.getD_eq_getElem l [] ht, List.append_assoc]

theorem flatten_set_decomp {α : Type} (l : List (List α)) (xs : List α) {t : Nat}
    (ht : t < l.length) :
    (l.set t xs).flatten = (l.take t).flatten ++ xs ++ (l.drop (t + 1)).flatten := by
  rw [List.set_eq_take_append_cons_drop, if_pos ht, List.flatten_append,
    List.flatten_cons, List.append_assoc]

theorem flatten_set_append_perm {α : Type} (l : List (List α)) (x : α) {t : Nat}
    (ht : t < l.length) :
    List.Perm ((l.set t (l.getD t [] ++ [x])).flatten) (x :: l.flatten) := by
  have e1 : (l.set t (l.getD t [] ++ [x])).flatten
      = ((l.take t).flatten ++ l.getD t []) ++ (x :: (l.drop (t + 1)).flatten) := by
    rw [flatten_set_decomp l _ ht] <;> simp [List.append_assoc]
  have e2 : l.flatten
      = ((l.take t).flatten ++ l.getD t []) ++ (l.drop (t + 1)).flatten := by
    rw [flatten_decomp l ht] <;> simp [List.append_assoc]
  rw [e1, e2]
  exact List.perm_middle

theorem flatten_cons_perm {α : Type} (l : List (List α)) {t : Nat} {x : α}
    {rest : List α} (ht : t < l.length) (hslot : l.getD t [] = x :: rest) :
    List.Perm l.flatten (x :: (l.set t rest).flatten) := by
  have e1 : l.flatten
      = (l.take t).flatten ++ (x :: (rest ++ (l.drop (t + 1)).flatten)) := by
    rw [flatten_decomp l ht, hslot] <;> simp [List.append_assoc]
  have e2 : (l.set t rest).flatten
      = (l.take t).flatten ++ (rest ++ (l.drop (t + 1)).flatten) := by
    rw [flatten_set_decomp l _ ht] <;> simp [List.append_assoc]
  rw [e1, e2]
  exact List.perm_middle

theorem Ctb.eraseFutureKey_map_key (k : K) (fe : List (Nat × EventNode K V)) :
    (Ctb.eraseFutureKey k fe).map (·.2.key) = eraseKey k (fe.map (·.2.key)) := by
  induction fe with
  | nil => rfl
  | cons p rest ih =>
      obtain ⟨h, n⟩ := p
      by_cases hk : n.key = k
      · simp [Ctb.eraseFutureKey, eraseKey, hk]
      · simp [Ctb.eraseFutureKey, eraseKey, hk, ih]

/-- Reading back the slot just written. -/
theorem Ctb.slotAt_set_self {K V : Type} [DecidableEq K]
    (s : Ctb.IndexedTimeWheel K V) (slots : List (List (EventNode K V)))
    (t : Nat) (xs : List (EventNode K V)) (ht : t < slots.length) :
    Ctb.slotAt { s with slots := slots.set t xs } t = xs := by
  simp [Ctb.slotAt, List.getD, List.getElem?_set_self, ht]

/-- Slots other than the one written are unchanged. -/
theorem Ctb.slotAt_set_ne {K V : Type} [DecidableEq K]
    (s s' : Ctb.IndexedTimeWheel K V) (t u : Nat) (xs : List (EventNode K V))
    (hne : t ≠ u) (hs : s'.slots = s.slots.set t xs) :
    Ctb.slotAt s' u = Ctb.slotAt s u := by
  simp [Ctb.slotAt, hs, List.getD, List.getElem?_set_ne hne]

theorem insertPos_eq_zero {h : Nat} {fe : List (Nat × EventNode K V)}
    (hall : ∀ p ∈ fe, ¬ p.1 ≤ h) : insertPos h fe = 0 := by
  induction fe with
  | nil => rfl
  | cons p rest ih =>
      obtain ⟨h1, n1⟩ := p
      have hr : insertPos h rest = 0 :=
        ih fun q hq => hall q (List.mem_cons_of_mem _ hq)
      have h1h : ¬ h1 ≤ h := hall (h1, n1) (List.mem_cons_self _ _)
      show (if insertPos h rest = 0 then (if h1 ≤ h then 1 else 0)
        else insertPos h rest + 1) = 0
      rw [if_pos hr, if_neg h1h]

/-- On a list sorted by due hour, `_insert_future_event` places the new entry
after every entry with an hour `≤ h` and before every later one: stable FIFO
among equal due hours. -/
theorem insertFutureEvent_sorted (h : Nat) (n : EventNode K V) :
    ∀ (fe : List (Nat × EventNode K V)),
      List.Pairwise (fun a b => a.1 ≤ b.1) fe →
      insertFutureEvent fe h n
        = fe.takeWhile (fun p => decide (p.1 ≤ h))
          ++ (h, n) :: fe.dropWhile (fun p => decide (p.1 ≤ h)) := by
  intro fe
  induction fe with
  | nil => intro _; rfl
  | cons p rest ih =>
      intro hp
      obtain ⟨h1, n1⟩ := p
      rcases List.pairwise_cons.mp hp with ⟨hall, hrest⟩
      by_cases hle : h1 ≤ h
      · have hpos : insertPos h ((h1, n1) :: rest) = insertPos h rest + 1 := by
          show (if insertPos h rest = 0 then (if h1 ≤ h then 1 else 0)
            else insertPos h rest + 1) = insertPos h rest + 1
          split
          · rename_i hr
            simp [hr, hle]
          · rfl
        rw [insertFutureEvent, hpos, List.insertIdx_succ_cons,
          List.takeWhile_cons_of_pos (by simpa using hle),
          List.dropWhile_cons_of_pos (by simpa using hle)]
        rw [← insertFutureEvent]
        rw [ih hrest, List.cons_append]
      · have hpos : insertPos h ((h1, n1) :: rest) = 0 := by
          have hr : insertPos h rest = 0 := by
            refine insertPos_eq_zero fun q hq hqh => hle ?_
            exact le_trans (hall q hq) hqh
          show (if insertPos h rest = 0 then (if h1 ≤ h then 1 else 0)
            else insertPos h rest + 1) = 0
          rw [if_pos hr, if_neg hle]
        rw [insertFutureEvent, hpos, List.insertIdx_zero,
          List.takeWhile_cons_of_neg (by simpa using hle),
          List.dropWhile_cons_of_neg (by simpa using hle), List.nil_append]

/-- Closed form of a below-horizon `schedule_with_delay`: the node is
appended to slot `(offset + d) % buffer_size` and the key/node pair to the
index. -/
theorem Ctb.schedule_in_wheel_eq (s : Ctb.IndexedTimeWheel K V) (k : K) (v : V)
    (d : Nat) (hlk : idxLookup s.index k = none) (hd : d < s.buffer_size) :
    Ctb.schedule_with_delay s k v (d : Int)
      = ({ s with
            slots := s.slots.set ((s.offset + d) % s.buffer_size)
              (Ctb.slotAt s ((s.offset + d) % s.buffer_size)
                ++ [⟨k, v, Int.ofNat ((s.offset + d) % s.buffer_size),
                      s.total_ticks + d⟩])
            index := s.index ++
              [(k, ⟨k, v, Int.ofNat ((s.offset + d) % s.buffer_size),
                      s.total_ticks + d⟩)] },
          none) := by
  rw [Ctb.schedule_with_delay, if_neg (by simp [hlk]), if_neg (by omega)]
  simp only [Int.toNat_natCast]
  rw [if_neg (by omega)]

/-- Closed form of an at-or-beyond-horizon `schedule_with_delay`: the node
goes to the overflow list and the key/node pair to the index. -/
theorem Ctb.schedule_overflow_eq (s : Ctb.IndexedTimeWheel K V) (k : K) (v : V)
    (d : Nat) (hlk : idxLookup s.index k = none) (hd : s.buffer_size ≤ d) :
    Ctb.schedule_with_delay s k v (d : Int)
      = ({ s with
            future_events := insertFutureEvent s.future_events (s.total_ticks + d)
              ⟨k, v, -1, s.total_ticks + d⟩
            index := s.index ++ [(k, ⟨k, v, -1, s.total_ticks + d⟩)] },
          none) := by
  rw [Ctb.schedule_with_delay, if_neg (by simp [hlk]), if_neg (by omega)]
  simp only [Int.toNat_natCast]
  rw [if_pos (by omega)]

/-- `popMany` serves a slot front to back: starting from any state, popping
as many times as the current slot is long returns exactly the slot's
`(key, value)` pairs in stored order. -/
theorem Ctb.popMany_slot :
    ∀ (sl : List (EventNode K V)) (s : Ctb.IndexedTimeWheel K V),
      s.offset < s.slots.length → Ctb.slotAt s s.offset = sl →
      Ctb.popMany sl.length s = sl.map (fun n => (n.key, n.value)) := by
  intro sl
  induction sl with
  | nil =>
      intro s hoff hsl
      rfl
  | cons n rest ih =>
      intro s hoff hsl
      have hpop : Ctb.pop_due_event s
          = (some (n.key, n.value),
             { s with
                slots := s.slots.set s.offset rest
                index := idxErase s.index n.key }) := by
        rw [Ctb.pop_due_event, hsl]
      have hrec := ih
        { s with
            slots := s.slots.set s.offset rest
            index := idxErase s.index n.key }
        (by simpa using hoff)
        (Ctb.slotAt_set_self s s.slots s.offset rest hoff)
      show Ctb.popMany (rest.length + 1) s = _
      rw [Ctb.popMany, hpop]
      show (n.key, n.value) :: Ctb.popMany rest.length
          { s with
              slots := s.slots.set s.offset rest
              index := idxErase s.index n.key }
        = (n :: rest).map (fun n => (n.key, n.value))
      rw [hrec, List.map_cons]

theorem set_getD_self {α : Type} {d : α} :
    ∀ (l : List α) (t : Nat), t < l.length → l.set t (l.getD t d) = l := by
  intro l
  induction l with
  | nil => intro t ht; cases ht
  | cons x rest ih =>
      intro t ht
      cases t with
      | zero => rfl
      | succ t =>
          show x :: rest.set t (rest.getD t d) = x :: rest
          rw [ih t (Nat.lt_of_succ_lt_succ ht)]

theorem mem_flatten_of_mem_getD {α : Type} {m : α} {l : List (List α)} {t : Nat}
    (ht : t < l.length) (hm : m ∈ l.getD t []) : m ∈ l.flatten := by
  refine List.mem_flatten.mpr ⟨l.getD t [], ?_, hm⟩
  rw [List.getD_eq_getElem l [] ht]
  exact l.getElem_mem ht

theorem lt_length_of_getD_ne_nil {α : Type} {l : List (List α)} {t : Nat}
    (h : l.getD t [] ≠ []) : t < l.length := by
  by_contra hc
  push_neg at hc
  simp [List.getD, List.getElem?_eq_none hc] at h

theorem getD_eq_nil_of_le {α : Type} {l : List (List α)} {t : Nat}
    (h : l.length ≤ t) : l.getD t [] = [] := by
  simp [List.getD, List.getElem?_eq_none h]

/-- Erasing the just-inserted key-`k` entry from an overflow list that held
no key-`k` entry gives back the original list. -/
theorem Ctb.eraseFutureKey_insertIdx {k : K} {n : EventNode K V} {h : Nat}
    (hn : n.key = k) :
    ∀ (pos : Nat) (fe : List (Nat × EventNode K V)), pos ≤ fe.length →
      (∀ p ∈ fe, p.2.key ≠ k) →
      Ctb.eraseFutureKey k (fe.insertIdx pos (h, n)) = fe := by
  intro pos
  induction pos with
  | zero =>
      intro fe _ _
      rw [List.insertIdx_zero, Ctb.eraseFutureKey, if_pos hn]
  | succ pos ih =>
      intro fe hpos hall
      cases fe with
      | nil => cases hpos
      | cons q rest =>
          rw [List.insertIdx_succ_cons, Ctb.eraseFutureKey,
            if_neg (hall q (List.mem_cons_self _ _))]
          rw [ih rest (Nat.le_of_succ_le_succ hpos)
            (fun p hp => hall p (List.mem_cons_of_mem _ hp))]

/-- Scheduling a fresh key (any delay) and removing it straight away returns
the value and restores the wheel to exactly the original state. -/
theorem Ctb.schedule_remove_state (s : Ctb.IndexedTimeWheel K V) (k : K) (v : V)
    (d : Nat) (hlen : s.slots.length = s.buffer_size) (hbs : 0 < s.buffer_size)
    (hk : k ∉ (Ctb.allNodes s).map (·.key)) (hlk : idxLookup s.index k = none) :
    Ctb.remove (Ctb.schedule_with_delay s k v (d : Int)).1 k = (some v, s) := by
  have hkfl : ∀ m ∈ s.slots.flatten, m.key ≠ k := by
    intro m hm hmk
    exact hk (hmk ▸ List.mem_map_of_mem (·.key) (List.mem_append_left _ hm))
  have hkfe : ∀ p ∈ s.future_events, p.2.key ≠ k := by
    intro p hp hpk
    exact hk (hpk ▸ List.mem_map_of_mem (·.key)
      (List.mem_append_right _ (List.mem_map_of_mem (·.2) hp)))
  by_cases hd : d < s.buffer_size
  · have ht : (s.offset + d) % s.buffer_size < s.buffer_size := Nat.mod_lt _ hbs
    have ht' : (s.offset + d) % s.buffer_size < s.slots.length := by
      rw [hlen]; exact ht
    have e1 := Ctb.schedule_in_wheel_eq s k v d hlk hd
    rw [e1, Ctb.remove]
    dsimp only
    have hlookup : idxLookup (s.index ++
        [(k, (⟨k, v, Int.ofNat ((s.offset + d) % s.buffer_size),
          s.total_ticks + d⟩ : EventNode K V))]) k
        = some (⟨k, v, Int.ofNat ((s.offset + d) % s.buffer_size),
            s.total_ticks + d⟩ : EventNode K V) :=
      idxLookup_append_self _ hlk
    rw [hlookup]
    dsimp only
    rw [if_neg (fun hcon =>
      Int.noConfusion (hcon : Int.ofNat ((s.offset + d) % s.buffer_size) = -1))]
    rw [show (Int.ofNat ((s.offset + d) % s.buffer_size)).toNat
      = (s.offset + d) % s.buffer_size from rfl]
    have hgd : (s.slots.set ((s.offset + d) % s.buffer_size)
        (Ctb.slotAt s ((s.offset + d) % s.buffer_size)
          ++ [(⟨k, v, Int.ofNat ((s.offset + d) % s.buffer_size),
                s.total_ticks + d⟩ : EventNode K V)])).getD
        ((s.offset + d) % s.buffer_size) []
        = Ctb.slotAt s ((s.offset + d) % s.buffer_size)
          ++ [(⟨k, v, Int.ofNat ((s.offset + d) % s.buffer_size),
                s.total_ticks + d⟩ : EventNode K V)] := by
      simp [List.getD, List.getElem?_set_self, ht']
    have hfself : (Ctb.slotAt s ((s.offset + d) % s.buffer_size)).filter
        (fun m => decide (m.key ≠ k))
        = Ctb.slotAt s ((s.offset + d) % s.buffer_size) := by
      refine List.filter_eq_self.mpr ?_
      intro m hm
      simpa using hkfl m (mem_flatten_of_mem_getD ht' hm)
    have hfone : ([(⟨k, v, Int.ofNat ((s.offset + d) % s.buffer_size),
        s.total_ticks + d⟩ : EventNode K V)].filter fun m => decide (m.key ≠ k))
        = [] := by
      simp
    rw [hgd, List.filter_append, hfself, hfone, List.append_nil, List.set_set,
      idxErase_append hlk, Ctb.slotAt, set_getD_self s.slots _ ht']
  · have e1 := Ctb.schedule_overflow_eq s k v d hlk (by omega)
    rw [e1, Ctb.remove]
    dsimp only
    have hlookup : idxLookup (s.index ++
        [(k, (⟨k, v, -1, s.total_ticks + d⟩ : EventNode K V))]) k
        = some (⟨k, v, -1, s.total_ticks + d⟩ : EventNode K V) :=
      idxLookup_append_self _ hlk
    rw [hlookup]
    dsimp only
    rw [if_pos (Eq.refl (-1 : Int))]
    have hfe : Ctb.eraseFutureKey k
        (insertFutureEvent s.future_events (s.total_ticks + d)
          (⟨k, v, -1, s.total_ticks + d⟩ : EventNode K V)) = s.future_events := by
      rw [insertFutureEvent]
      exact @Ctb.eraseFutureKey_insertIdx K V _ k
        (⟨k, v, -1, s.total_ticks + d⟩ : EventNode K V) (s.total_ticks + d) rfl
        _ s.future_events (insertPos_le _ _) hkfe
    rw [hfe, idxErase_append hlk]

theorem mem_eraseKey_of_ne {m : List K} {x k : K} (hne : x ≠ k) (hx : x ∈ m) :
    x ∈ eraseKey k m := by
  induction m with
  | nil => cases hx
  | cons y rest ih =>
      by_cases hy : y = k
      · rw [eraseKey, if_pos hy]
        rcases List.mem_cons.mp hx with h1 | h1
        · exact absurd (h1.trans hy) hne
        · exact h1
      · rw [eraseKey, if_neg hy]
        rcases List.mem_cons.mp hx with h1 | h1
        · exact h1 ▸ List.mem_cons_self _ _
        · exact List.mem_cons_of_mem _ (ih h1)

theorem flatten_replicate_nil {α : Type} :
    ∀ (n : Nat), (List.replicate n ([] : List α)).flatten = []
  | 0 => rfl
  | n + 1 => by
      rw [List.replicate_succ, List.flatten_cons, List.nil_append,
        flatten_replicate_nil n]

theorem getD_set_self {α : Type} (l : List (List α)) (t : Nat) (xs : List α)
    (ht : t < l.length) : (l.set t xs).getD t [] = xs := by
  simp [List.getD, List.getElem?_set_self, ht]

theorem getD_set_ne {α : Type} (l : List (List α)) {t u : Nat} (xs : List α)
    (hne : t ≠ u) : (l.set t xs).getD u [] = l.getD u [] := by
  simp [List.getD, List.getElem?_set_ne hne]

/-- New wheel states are well formed: the constructor's state. -/
theorem Ctb.WF_init (K V : Type) [DecidableEq K] (bs : Nat) (hbs : 0 < bs) :
    Ctb.WF (Ctb.init K V bs) := by
  refine ⟨hbs, hbs, ?_, ?_, ?_, ?_, ?_⟩
  · simp [Ctb.init]
  · simp [Ctb.init, flatten_replicate_nil]
  · simp [Ctb.init]
  · intro p hp
    simp [Ctb.init] at hp
  · intro p hp
    simp [Ctb.init] at hp

/-- `WFcore` is preserved by an overflow insertion of a fresh key. -/
theorem Ctb.WFcore_insert_overflow {bs : Nat} {slots : List (List (EventNode K V))}
    {index : List (K × EventNode K V)} {fe : List (Nat × EventNode K V)}
    (k : K) (v : V) (h : Nat)
    (hwf : Ctb.WFcore bs slots index fe) (hk : k ∉ index.map (·.1)) :
    Ctb.WFcore bs slots (index ++ [(k, ⟨k, v, -1, h⟩)])
      (insertFutureEvent fe h ⟨k, v, -1, h⟩) := by
  obtain ⟨hlen, hperm, hnd, hassoc, hloc⟩ := hwf
  have hfeperm : List.Perm
      ((insertFutureEvent fe h (⟨k, v, -1, h⟩ : EventNode K V)).map (·.2.key))
      (k :: fe.map (·.2.key)) :=
    (insertFutureEvent_perm fe h ⟨k, v, -1, h⟩).map (·.2.key)
  refine ⟨hlen, ?_, ?_, ?_, ?_⟩
  · have h1 : (index ++ [(k, (⟨k, v, -1, h⟩ : EventNode K V))]).map (·.1)
        = index.map (·.1) ++ [k] := by simp
    rw [h1]
    refine (List.perm_append_singleton _ _).trans ?_
    refine (hperm.cons k).trans ?_
    refine (List.perm_middle).symm.trans ?_
    exact List.Perm.append_left _ hfeperm.symm
  · have h1 : (index ++ [(k, (⟨k, v, -1, h⟩ : EventNode K V))]).map (·.1)
        = index.map (·.1) ++ [k] := by simp
    rw [h1]
    rw [(List.perm_append_singleton _ _).nodup_iff]
    exact List.nodup_cons.mpr ⟨hk, hnd⟩
  · intro p hp
    rcases List.mem_append.mp hp with hp' | hp'
    · exact hassoc p hp'
    · rcases List.mem_singleton.mp hp' with rfl
      rfl
  · intro p hp
    rcases List.mem_append.mp hp with hp' | hp'
    · rcases hloc p hp' with ⟨hsi, hmem⟩ | hr
      · exact Or.inl ⟨hsi, hfeperm.mem_iff.mpr (List.mem_cons_of_mem _ hmem)⟩
      · exact Or.inr hr
    · rcases List.mem_singleton.mp hp' with rfl
      exact Or.inl ⟨rfl, hfeperm.mem_iff.mpr (List.mem_cons_self _ _)⟩

/-- `WFcore` is preserved by an in-wheel insertion of a fresh key. -/
theorem Ctb.WFcore_insert_wheel {bs : Nat} {slots : List (List (EventNode K V))}
    {index : List (K × EventNode K V)} {fe : List (Nat × EventNode K V)}
    (k : K) (v : V) (t ah : Nat)
    (hwf : Ctb.WFcore bs slots index fe) (hk : k ∉ index.map (·.1)) (ht : t < bs) :
    Ctb.WFcore bs (slots.set t (slots.getD t [] ++ [⟨k, v, Int.ofNat t, ah⟩]))
      (index ++ [(k, ⟨k, v, Int.ofNat t, ah⟩)]) fe := by
  obtain ⟨hlen, hperm, hnd, hassoc, hloc⟩ := hwf
  have htl : t < slots.length := by rw [hlen]; exact ht
  have hflperm : List.Perm
      ((slots.set t (slots.getD t []
        ++ [(⟨k, v, Int.ofNat t, ah⟩ : EventNode K V)])).flatten.map (·.key))
      (k :: slots.flatten.map (·.key)) :=
    (flatten_set_append_perm slots _ htl).map (·.key)
  refine ⟨by simpa using hlen, ?_, ?_, ?_, ?_⟩
  · have h1 : (index ++ [(k, (⟨k, v, Int.ofNat t, ah⟩ : EventNode K V))]).map (·.1)
        = index.map (·.1) ++ [k] := by simp
    rw [h1]
    refine (List.perm_append_singleton _ _).trans ?_
    refine (hperm.cons k).trans ?_
    show List.Perm (k :: (slots.flatten.map (·.key) ++ fe.map (·.2.key)))
      ((slots.set t (slots.getD t []
          ++ [(⟨k, v, Int.ofNat t, ah⟩ : EventNode K V)])).flatten.map (·.key)
        ++ fe.map (·.2.key))
    refine List.Perm.trans ?_ (List.Perm.append_right _ hflperm.symm)
    rfl
  · have h1 : (index ++ [(k, (⟨k, v, Int.ofNat t, ah⟩ : EventNode K V))]).map (·.1)
        = index.map (·.1) ++ [k] := by simp
    rw [h1]
    rw [(List.perm_append_singleton _ _).nodup_iff]
    exact List.nodup_cons.mpr ⟨hk, hnd⟩
  · intro p hp
    rcases List.mem_append.mp hp with hp' | hp'
    · exact hassoc p hp'
    · rcases List.mem_singleton.mp hp' with rfl
      rfl
  · intro p hp
    rcases List.mem_append.mp hp with hp' | hp'
    · rcases hloc p hp' with hl | ⟨hsi, hlt, hmem⟩
      · exact Or.inl hl
      · refine Or.inr ⟨hsi, hlt, ?_⟩
        by_cases heq : t = p.2.slot_index.toNat
        · rw [← heq, getD_set_self slots t _ htl]
          rw [← heq] at hmem
          exact List.mem_map.mpr
            (by rcases List.mem_map.mp hmem with ⟨m, hm, hkey⟩
                exact ⟨m, List.mem_append_left _ hm, hkey⟩)
        · rw [getD_set_ne slots _ heq]
          exact hmem
    · rcases List.mem_singleton.mp hp' with rfl
      refine Or.inr ⟨show (0 : Int) ≤ Int.ofNat t from
        Int.ofNat_le.mpr (Nat.zero_le t), ?_, ?_⟩
      · show (Int.ofNat t).toNat < bs
        simpa using ht
      · show k ∈ ((slots.set t (slots.getD t []
          ++ [(⟨k, v, Int.ofNat t, ah⟩ : EventNode K V)])).getD
            (Int.ofNat t).toNat []).map (·.key)
        rw [show (Int.ofNat t).toNat = t from rfl, getD_set_self slots t _ htl]
        exact List.mem_map.mpr ⟨⟨k, v, Int.ofNat t, ah⟩,
          List.mem_append_right _ (List.mem_singleton.mpr rfl), rfl⟩

/-- `WF` is preserved by `schedule_with_delay` (also on its error paths,
which leave the state unchanged). -/
theorem Ctb.WF_schedule (s : Ctb.IndexedTimeWheel K V) (k : K) (v : V) (δ : Int)
    (hwf : Ctb.WF s) : Ctb.WF (Ctb.schedule_with_delay s k v δ).1 := by
  obtain ⟨hbs, hoff, hcore⟩ := hwf
  by_cases hlk : (idxLookup s.index k).isSome = true
  · have he : (Ctb.schedule_with_delay s k v δ).1 = s := by
      rw [Ctb.schedule_with_delay, if_pos hlk]
    rw [he]
    exact ⟨hbs, hoff, hcore⟩
  · have hlknone : idxLookup s.index k = none := by
      rcases h : idxLookup s.index k with _ | n
      · rfl
      · rw [h] at hlk
        simp at hlk
    have hkmem : k ∉ s.index.map (·.1) := idxLookup_eq_none_iff.mp hlknone
    by_cases hneg : δ < 0
    · have he : (Ctb.schedule_with_delay s k v δ).1 = s := by
        rw [Ctb.schedule_with_delay, if_neg (by simp [hlknone]), if_pos hneg]
      rw [he]
      exact ⟨hbs, hoff, hcore⟩
    · have hδ : ((δ.toNat : Nat) : Int) = δ := Int.toNat_of_nonneg (by omega)
      by_cases hbig : s.buffer_size ≤ δ.toNat
      · have he := Ctb.schedule_overflow_eq s k v δ.toNat hlknone hbig
        rw [hδ] at he
        rw [he]
        exact ⟨hbs, hoff,
          Ctb.WFcore_insert_overflow k v (s.total_ticks + δ.toNat) hcore hkmem⟩
      · have hd : δ.toNat < s.buffer_size := by omega
        have he := Ctb.schedule_in_wheel_eq s k v δ.toNat hlknone hd
        rw [hδ] at he
        rw [he]
        exact ⟨hbs, hoff,
          Ctb.WFcore_insert_wheel k v ((s.offset + δ.toNat) % s.buffer_size)
            (s.total_ticks + δ.toNat) hcore hkmem (Nat.mod_lt _ hbs)⟩

/-- `WF` is preserved by `schedule_at_absolute_hour`. -/
theorem Ctb.WF_scheduleAbs (s : Ctb.IndexedTimeWheel K V) (k : K) (v : V)
    (h : Int) (hwf : Ctb.WF s) :
    Ctb.WF (Ctb.schedule_at_absolute_hour s k v h).1 := by
  by_cases hpast : h < (s.total_ticks : Int)
  · have he : (Ctb.schedule_at_absolute_hour s k v h).1 = s := by
      rw [Ctb.schedule_at_absolute_hour, if_pos hpast]
    rw [he]
    exact hwf
  · have he : Ctb.schedule_at_absolute_hour s k v h
        = Ctb.schedule_with_delay s k v (h - (s.total_ticks : Int)) := by
      rw [Ctb.schedule_at_absolute_hour, if_neg hpast]
    rw [he]
    exact Ctb.WF_schedule s k v _ hwf

/-- `WF` is preserved by `pop_due_event`. -/
theorem Ctb.WF_pop (s : Ctb.IndexedTimeWheel K V) (hwf : Ctb.WF s) :
    Ctb.WF (Ctb.pop_due_event s).2 := by
  obtain ⟨hbs, hoff, hlen, hperm, hnd, hassoc, hloc⟩ := hwf
  rcases hsl : Ctb.slotAt s s.offset with _ | ⟨n, rest⟩
  · have he : (Ctb.pop_due_event s).2 = s := by
      rw [Ctb.pop_due_event, hsl]
    rw [he]
    exact ⟨hbs, hoff, hlen, hperm, hnd, hassoc, hloc⟩
  · have hofflen : s.offset < s.slots.length := by rw [hlen]; exact hoff
    have hslg : s.slots.getD s.offset [] = n :: rest := hsl
    have he : (Ctb.pop_due_event s).2
        = { s with
            slots := s.slots.set s.offset rest
            index := idxErase s.index n.key } := by
      rw [Ctb.pop_due_event, hsl]
    rw [he]
    have hnmem : n ∈ s.slots.getD s.offset [] := by
      rw [hslg]
      exact List.mem_cons_self _ _
    have hkeyfl : n.key ∈ s.slots.flatten.map (·.key) :=
      List.mem_map_of_mem (·.key) (mem_flatten_of_mem_getD hofflen hnmem)
    have hkeyidx : n.key ∈ s.index.map (·.1) :=
      hperm.symm.mem_iff.mp (List.mem_append_left _ hkeyfl)
    have hflperm : List.Perm (s.slots.flatten.map (·.key))
        (n.key :: (s.slots.set s.offset rest).flatten.map (·.key)) :=
      (flatten_cons_perm s.slots hofflen hslg).map (·.key)
    refine ⟨hbs, hoff, by simpa using hlen, ?_, ?_, ?_, ?_⟩
    · rw [idxErase_map_fst]
      have h1 : List.Perm (s.index.map (·.1))
          (n.key :: eraseKey n.key (s.index.map (·.1))) :=
        perm_cons_eraseKey hkeyidx
      have h2 : List.Perm (s.index.map (·.1))
          (n.key :: ((s.slots.set s.offset rest).flatten.map (·.key)
            ++ s.future_events.map (·.2.key))) :=
        hperm.trans (List.Perm.append_right _ hflperm)
      exact (h1.symm.trans h2).cons_inv
    · rw [idxErase_map_fst]
      exact (eraseKey_sublist n.key _).nodup hnd
    · intro p hp
      exact hassoc p (mem_idxErase hp)
    · intro p hp
      have hpmem : p ∈ s.index := mem_idxErase hp
      have hpne : p.1 ≠ n.key := by
        intro hcon
        have hm1 : p.1 ∈ (idxErase s.index n.key).map (·.1) :=
          List.mem_map_of_mem (·.1) hp
        rw [idxErase_map_fst] at hm1
        exact not_mem_eraseKey hnd (hcon ▸ hm1)
      have hpkey : p.2.key = p.1 := hassoc p hpmem
      rcases hloc p hpmem with ⟨hsi, hmem⟩ | ⟨hsi, hlt, hmem⟩
      · exact Or.inl ⟨hsi, hmem⟩
      · refine Or.inr ⟨hsi, hlt, ?_⟩
        by_cases heq : s.offset = p.2.slot_index.toNat
        · rw [← heq] at hmem ⊢
          rw [getD_set_self s.slots s.offset rest hofflen]
          rw [hslg] at hmem
          rcases List.mem_map.mp hmem with ⟨m, hm, hkeym⟩
          rcases List.mem_cons.mp hm with hm' | hm'
          · exfalso
            apply hpne
            rw [← hpkey, ← hkeym, hm']
          · exact List.mem_map.mpr ⟨m, hm', hkeym⟩
        · rw [getD_set_ne s.slots rest heq]
          exact hmem

/-- Filtering away the unique node with key `k` from a slot with pairwise
distinct keys removes exactly that key. -/
theorem Ctb.keys_filter_perm {k : K} :
    ∀ (l : List (EventNode K V)), (l.map (·.key)).Nodup → k ∈ l.map (·.key) →
      List.Perm (l.map (·.key))
        (k :: (l.filter fun m => decide (m.key ≠ k)).map (·.key)) := by
  intro l
  induction l with
  | nil =>
      intro _ hk
      cases hk
  | cons m rest ih =>
      intro hnd hk
      rw [List.map_cons, List.nodup_cons] at hnd
      by_cases hmk : m.key = k
      · have hrest : ∀ x ∈ rest, x.key ≠ k := by
          intro x hx hxk
          exact hnd.1 (hmk ▸ hxk ▸ List.mem_map_of_mem (·.key) hx)
        have hfr : rest.filter (fun m => decide (m.key ≠ k)) = rest :=
          List.filter_eq_self.mpr (fun x hx => by simpa using hrest x hx)
        rw [List.map_cons, hmk, List.filter_cons,
          if_neg (by simp [hmk] : ¬ (decide (m.key ≠ k)) = true), hfr]
      · have hkrest : k ∈ rest.map (·.key) := by
          rw [List.map_cons] at hk
          rcases List.mem_cons.mp hk with h1 | h1
          · exact absurd h1.symm hmk
          · exact h1
        have hperm' := ih hnd.2 hkrest
        rw [List.map_cons, List.filter_cons,
          if_pos (by simp [hmk] : (decide (m.key ≠ k)) = true), List.map_cons]
        exact (hperm'.cons m.key).trans (List.Perm.swap k m.key _)

/-- `WF` is preserved by `remove`. -/
theorem Ctb.WF_remove (s : Ctb.IndexedTimeWheel K V) (k : K) (hwf : Ctb.WF s) :
    Ctb.WF (Ctb.remove s k).2 := by
  obtain ⟨hbs, hoff, hlen, hperm, hnd, hassoc, hloc⟩ := hwf
  rcases hlk : idxLookup s.index k with _ | node
  · have he : (Ctb.remove s k).2 = s := by
      rw [Ctb.remove, hlk]
    rw [he]
    exact ⟨hbs, hoff, hlen, hperm, hnd, hassoc, hloc⟩
  · have hpmem : (k, node) ∈ s.index := mem_of_idxLookup hlk
    have hkidx : k ∈ s.index.map (·.1) := List.mem_map_of_mem (·.1) hpmem
    have hnodekey : node.key = k := hassoc (k, node) hpmem
    have hloc' := hloc (k, node) hpmem
    have hpne : ∀ p ∈ idxErase s.index k, p.1 ≠ k := by
      intro p hp hcon
      have hm1 : p.1 ∈ (idxErase s.index k).map (·.1) :=
        List.mem_map_of_mem (·.1) hp
      rw [idxErase_map_fst] at hm1
      exact not_mem_eraseKey hnd (hcon ▸ hm1)
    by_cases hsi : node.slot_index = -1
    · have he : (Ctb.remove s k).2
          = { s with
              future_events := Ctb.eraseFutureKey k s.future_events
              index := idxErase s.index k } := by
        rw [Ctb.remove, hlk]
        dsimp only
        rw [if_pos hsi]
      rw [he]
      have hkfe : k ∈ s.future_events.map (·.2.key) := by
        rcases hloc' with ⟨_, hmem⟩ | ⟨hge, _, _⟩
        · exact hnodekey ▸ hmem
        · rw [hsi] at hge
          omega
      have hfeperm : List.Perm (s.future_events.map (·.2.key))
          (k :: eraseKey k (s.future_events.map (·.2.key))) :=
        perm_cons_eraseKey hkfe
      refine ⟨hbs, hoff, hlen, ?_, ?_, ?_, ?_⟩
      · rw [idxErase_map_fst, Ctb.eraseFutureKey_map_key]
        have h1 := perm_cons_eraseKey hkidx
        have h2 : List.Perm (s.index.map (·.1))
            (k :: (s.slots.flatten.map (·.key)
              ++ eraseKey k (s.future_events.map (·.2.key)))) :=
          hperm.trans ((List.Perm.append_left _ hfeperm).trans List.perm_middle)
        exact (h1.symm.trans h2).cons_inv
      · rw [idxErase_map_fst]
        exact (eraseKey_sublist k _).nodup hnd
      · intro p hp
        exact hassoc p (mem_idxErase hp)
      · intro p hp
        have hpmem2 : p ∈ s.index := mem_idxErase hp
        have hpkne : p.2.key ≠ k := by
          rw [hassoc p hpmem2]
          exact hpne p hp
        rcases hloc p hpmem2 with ⟨hsi2, hmem⟩ | hr
        · refine Or.inl ⟨hsi2, ?_⟩
          rw [Ctb.eraseFutureKey_map_key]
          exact mem_eraseKey_of_ne hpkne hmem
        · exact Or.inr hr
    · rcases hloc' with ⟨hcon, _⟩ | ⟨hge, hlt, hmem⟩
      · exact absurd hcon hsi
      have hmemk : k ∈ (s.slots.getD node.slot_index.toNat []).map (·.key) :=
        hnodekey ▸ hmem
      have htl : node.slot_index.toNat < s.slots.length := by
        rw [hlen]
        exact hlt
      have he : (Ctb.remove s k).2
          = { s with
              slots := s.slots.set node.slot_index.toNat
                ((s.slots.getD node.slot_index.toNat []).filter
                  fun m => decide (m.key ≠ k))
              index := idxErase s.index k } := by
        rw [Ctb.remove, hlk]
        dsimp only
        rw [if_neg hsi]
      rw [he]
      have hndall : (s.slots.flatten.map (·.key)
          ++ s.future_events.map (·.2.key)).Nodup := hperm.nodup_iff.mp hnd
      have hndfl : (s.slots.flatten.map (·.key)).Nodup :=
        (List.nodup_append.mp hndall).1
      have hfl := flatten_decomp s.slots htl
      have hndslot : ((s.slots.getD node.slot_index.toNat []).map (·.key)).Nodup := by
        rw [hfl] at hndfl
        rw [List.map_append, List.map_append] at hndfl
        exact (List.nodup_append.mp (List.nodup_append.mp hndfl).1).2.1
      have hslotperm := Ctb.keys_filter_perm
        (s.slots.getD node.slot_index.toNat []) hndslot hmemk
      refine ⟨hbs, hoff, by simpa using hlen, ?_, ?_, ?_, ?_⟩
      · rw [idxErase_map_fst]
        have hfl2 := flatten_set_decomp s.slots
          ((s.slots.getD node.slot_index.toNat []).filter
            fun m => decide (m.key ≠ k)) htl
        have h1 := perm_cons_eraseKey hkidx
        have h2 : List.Perm (s.slots.flatten.map (·.key))
            (k :: (s.slots.set node.slot_index.toNat
              ((s.slots.getD node.slot_index.toNat []).filter
                fun m => decide (m.key ≠ k))).flatten.map (·.key)) := by
          rw [hfl, hfl2, List.map_append, List.map_append,
            List.map_append, List.map_append]
          refine List.Perm.trans
            (List.Perm.append_right _ (List.Perm.append_left _ hslotperm)) ?_
          refine List.Perm.trans (List.Perm.append_right _ List.perm_middle) ?_
          exact List.Perm.refl _
        have h3 : List.Perm (s.index.map (·.1))
            (k :: ((s.slots.set node.slot_index.toNat
              ((s.slots.getD node.slot_index.toNat []).filter
                fun m => decide (m.key ≠ k))).flatten.map (·.key)
              ++ s.future_events.map (·.2.key))) :=
          hperm.trans ((List.Perm.append_right _ h2).trans (List.Perm.refl _))
        exact (h1.symm.trans h3).cons_inv
      · rw [idxErase_map_fst]
        exact (eraseKey_sublist k _).nodup hnd
      · intro p hp
        exact hassoc p (mem_idxErase hp)
      · intro p hp
        have hpmem2 : p ∈ s.index := mem_idxErase hp
        have hpkne : p.2.key ≠ k := by
          rw [hassoc p hpmem2]
          exact hpne p hp
        rcases hloc p hpmem2 with hl | ⟨hsi2, hlt2, hmem2⟩
        · exact Or.inl hl
        · refine Or.inr ⟨hsi2, hlt2, ?_⟩
          by_cases heq : node.slot_index.toNat = p.2.slot_index.toNat
          · rw [← heq] at hmem2 ⊢
            rw [getD_set_self s.slots _ _ htl]
            rcases List.mem_map.mp hmem2 with ⟨m, hm, hkeym⟩
            refine List.mem_map.mpr ⟨m, ?_, hkeym⟩
            refine List.mem_filter.mpr ⟨hm, ?_⟩
            simp only [decide_eq_true_eq]
            rw [hkeym]
            exact hpkne
          · rw [getD_set_ne s.slots _ heq]
            exact hmem2

/-- The promotion loop of `_tick` preserves well-formedness of the
slots/index/overflow triple. -/
theorem Ctb.promote_WFcore (total off bs : Nat) (hbs : 0 < bs) :
    ∀ (fe : List (Nat × EventNode K V)) (slots : List (List (EventNode K V)))
      (index : List (K × EventNode K V)),
      Ctb.WFcore bs slots index fe →
      Ctb.WFcore bs (Ctb.promote total off bs fe slots index).2.1
        (Ctb.promote total off bs fe slots index).2.2
        (Ctb.promote total off bs fe slots index).1 := by
  intro fe
  induction fe with
  | nil =>
      intro slots index h
      simpa [Ctb.promote] using h
  | cons q rest ih =>
      intro slots index h
      obtain ⟨hlen, hperm, hnd, hassoc, hloc⟩ := h
      obtain ⟨hh, n⟩ := q
      by_cases hle : hh ≤ total
      · have htb : (((off : Int) - 1) % (bs : Int)).toNat < bs := by
          have h1 : 0 ≤ ((off : Int) - 1) % (bs : Int) :=
            Int.emod_nonneg _ (by omega)
          have h2 : ((off : Int) - 1) % (bs : Int) < (bs : Int) :=
            Int.emod_lt_of_pos _ (by omega)
          omega
        have htl : (((off : Int) - 1) % (bs : Int)).toNat < slots.length := by
          rw [hlen]
          exact htb
        have hkidx : n.key ∈ index.map (·.1) := by
          refine hperm.mem_iff.mpr (List.mem_append_right _ ?_)
          exact List.mem_map.mpr ⟨(hh, n), List.mem_cons_self _ _, rfl⟩
        have hflperm : List.Perm
            ((slots.set (((off : Int) - 1) % (bs : Int)).toNat
              (slots.getD (((off : Int) - 1) % (bs : Int)).toNat []
                ++ [{ n with slot_index :=
                      Int.ofNat (((off : Int) - 1) % (bs : Int)).toNat }])).flatten.map
              (·.key))
            (n.key :: slots.flatten.map (·.key)) :=
          (flatten_set_append_perm slots _ htl).map (·.key)
        have hcore2 : Ctb.WFcore bs
            (slots.set (((off : Int) - 1) % (bs : Int)).toNat
              (slots.getD (((off : Int) - 1) % (bs : Int)).toNat []
                ++ [{ n with slot_index :=
                      Int.ofNat (((off : Int) - 1) % (bs : Int)).toNat }]))
            (idxSet index n.key
              { n with slot_index :=
                  Int.ofNat (((off : Int) - 1) % (bs : Int)).toNat })
            rest := by
          refine ⟨by simpa using hlen, ?_, ?_, ?_, ?_⟩
          · rw [idxSet_map_fst]
            refine hperm.trans ?_
            show List.Perm
              (slots.flatten.map (·.key) ++ (n.key :: rest.map (·.2.key))) _
            exact List.perm_middle.trans (hflperm.append_right _).symm
          · rw [idxSet_map_fst]
            exact hnd
          · intro p hp
            rcases mem_idxSet_cases hnd hp with rfl | ⟨hp', _⟩
            · rfl
            · exact hassoc p hp'
          · intro p hp
            rcases mem_idxSet_cases hnd hp with rfl | ⟨hp', hpne⟩
            · refine Or.inr ⟨Int.ofNat_le.mpr (Nat.zero_le _), ?_, ?_⟩
              · show (Int.ofNat (((off : Int) - 1) % (bs : Int)).toNat).toNat < bs
                exact htb
              · show n.key ∈ _
                rw [show (Int.ofNat (((off : Int) - 1) % (bs : Int)).toNat).toNat
                  = (((off : Int) - 1) % (bs : Int)).toNat from rfl]
                rw [getD_set_self slots _ _ htl]
                exact List.mem_map.mpr ⟨_, List.mem_append_right _
                  (List.mem_singleton.mpr rfl), rfl⟩
            · have hpkne : p.2.key ≠ n.key := by
                rw [hassoc p hp']
                exact hpne
              rcases hloc p hp' with ⟨hsi, hmem⟩ | ⟨hge, hlt2, hmem⟩
              · refine Or.inl ⟨hsi, ?_⟩
                rw [List.map_cons] at hmem
                rcases List.mem_cons.mp hmem with h1 | h1
                · exact absurd h1 hpkne
                · exact h1
              · refine Or.inr ⟨hge, hlt2, ?_⟩
                by_cases heq : (((off : Int) - 1) % (bs : Int)).toNat
                    = p.2.slot_index.toNat
                · rw [← heq] at hmem ⊢
                  rw [getD_set_self slots _ _ htl]
                  rcases List.mem_map.mp hmem with ⟨m, hm, hkeym⟩
                  exact List.mem_map.mpr ⟨m, List.mem_append_left _ hm, hkeym⟩
                · rw [getD_set_ne slots _ heq]
                  exact hmem
        have hrec := ih _ _ hcore2
        simpa [Ctb.promote, hle] using hrec
      · have hsame : Ctb.promote total off bs ((hh, n) :: rest) slots index
            = ((hh, n) :: rest, slots, index) := by
          rw [Ctb.promote, if_neg hle]
        rw [hsame]
        exact ⟨hlen, hperm, hnd, hassoc, hloc⟩

/-- `WF` is preserved by `_tick`. -/
theorem Ctb.WF_tick (s : Ctb.IndexedTimeWheel K V) (hwf : Ctb.WF s) :
    Ctb.WF (Ctb.tick s) := by
  obtain ⟨hbs, hoff, hcore⟩ := hwf
  exact ⟨hbs, Nat.mod_lt _ hbs,
    Ctb.promote_WFcore (s.total_ticks + 1) ((s.total_ticks + 1) % s.buffer_size)
      s.buffer_size hbs s.future_events s.slots s.index hcore⟩

/-- `WF` is preserved by every public operation. -/
theorem Ctb.WF_runOp (s : Ctb.IndexedTimeWheel K V) (op : Ctb.Op K V)
    (hwf : Ctb.WF s) : Ctb.WF (Ctb.runOp s op) := by
  cases op with
  | sched k v d => exact Ctb.WF_schedule s k v d hwf
  | schedAbs k v h => exact Ctb.WF_scheduleAbs s k v h hwf
  | popOp => exact Ctb.WF_pop s hwf
  | rem k => exact Ctb.WF_remove s k hwf
  | tickOp => exact Ctb.WF_tick s hwf

/-- `WF` is preserved by every operation sequence. -/
theorem Ctb.WF_runOps :
    ∀ (ops : List (Ctb.Op K V)) (s : Ctb.IndexedTimeWheel K V),
      Ctb.WF s → Ctb.WF (Ctb.runOps s ops) := by
  intro ops
  induction ops with
  | nil => intro s hwf; exact hwf
  | cons op rest ih =>
      intro s hwf
      exact ih (Ctb.runOp s op) (Ctb.WF_runOp s op hwf)

/-- In a well-formed state, a key is indexed iff exactly one stored node
carries it, and `len()` equals the number of stored nodes. -/
theorem Ctb.WF_index_iff (s : Ctb.IndexedTimeWheel K V) (hwf : Ctb.WF s) (k : K) :
    (Ctb.containsKey s k = true ↔
      (Ctb.allNodes s).countP (fun n => decide (n.key = k)) = 1) ∧
    Ctb.size s = (Ctb.allNodes s).length := by
  obtain ⟨hbs, hoff, hlen, hperm, hnd, hassoc, hloc⟩ := hwf
  have hbridge : (Ctb.allNodes s).map (·.key)
      = s.slots.flatten.map (·.key) ++ s.future_events.map (·.2.key) := by
    rw [Ctb.allNodes, List.map_append, List.map_map]
    rfl
  have hndall : ((Ctb.allNodes s).map (·.key)).Nodup := by
    rw [hbridge]
    exact hperm.nodup_iff.mp hnd
  constructor
  · rw [Ctb.containsKey, countP_key_map, countP_eq_ite_of_nodup hndall k]
    constructor
    · intro h
      have hk : k ∈ s.index.map (·.1) := idxLookup_isSome_iff.mp h
      have hmem : k ∈ (Ctb.allNodes s).map (·.key) := by
        rw [hbridge]
        exact hperm.mem_iff.mp hk
      rw [if_pos hmem]
    · intro h
      by_cases hmem : k ∈ (Ctb.allNodes s).map (·.key)
      · refine idxLookup_isSome_iff.mpr (hperm.mem_iff.mpr ?_)
        rw [← hbridge]
        exact hmem
      · rw [if_neg hmem] at h
        cases h
  · rw [Ctb.size]
    have h1 : s.index.length = (s.index.map (·.1)).length := by simp
    have h2 := hperm.length_eq
    have h3 : ((Ctb.allNodes s).map (·.key)).length = (Ctb.allNodes s).length := by
      simp
    rw [h1, h2, ← hbridge, h3]

theorem countP_pair_key_map (fe : List (Nat × EventNode K V)) (k : K) :
    fe.countP (fun p => decide (p.2.key = k))
      = (fe.map (·.2.key)).countP (fun x => decide (x = k)) := by
  rw [List.countP_map]
  rfl

theorem countP_eraseKey_zero {m : List K} {k : K}
    (h : m.countP (fun x => decide (x = k)) ≤ 1) :
    (eraseKey k m).countP (fun x => decide (x = k)) = 0 := by
  induction m with
  | nil => rfl
  | cons x rest ih =>
      by_cases hx : x = k
      · rw [eraseKey, if_pos hx]
        have h' : rest.countP (fun y => decide (y = k)) + 1 ≤ 1 := by
          rw [List.countP_cons, decide_eq_true hx] at h
          simpa using h
        omega
      · rw [eraseKey, if_neg hx, List.countP_cons, decide_eq_false hx]
        have h' : rest.countP (fun y => decide (y = k)) ≤ 1 := by
          rw [List.countP_cons, decide_eq_false hx] at h
          simpa using h
        have hz := ih h'
        simpa using hz

/-- The promotion loop never introduces a key that was in neither the wheel
nor the overflow list. -/
theorem Ctb.keys_promote_absent {k : K} :
    ∀ (fe : List (Nat × EventNode K V)) (slots : List (List (EventNode K V)))
      (index : List (K × EventNode K V)) (total off bs : Nat),
      (∀ m ∈ slots.flatten, m.key ≠ k) → (∀ p ∈ fe, p.2.key ≠ k) →
      (∀ m ∈ (Ctb.promote total off bs fe slots index).2.1.flatten, m.key ≠ k) ∧
      (∀ p ∈ (Ctb.promote total off bs fe slots index).1, p.2.key ≠ k) := by
  intro fe
  induction fe with
  | nil =>
      intro slots index total off bs hsl hfe
      exact ⟨hsl, by intro p hp; cases hp⟩
  | cons q rest ih =>
      intro slots index total off bs hsl hfe
      obtain ⟨h, n⟩ := q
      by_cases hle : h ≤ total
      · have hslots' : ∀ m ∈ (slots.set ((((off : Int) - 1) % (bs : Int)).toNat)
            (slots.getD ((((off : Int) - 1) % (bs : Int)).toNat) []
              ++ [{ n with slot_index :=
                    Int.ofNat ((((off : Int) - 1) % (bs : Int)).toNat) }])).flatten,
            m.key ≠ k := by
          intro m hm
          rcases List.mem_flatten.mp hm with ⟨l, hl, hml⟩
          rcases List.mem_or_eq_of_mem_set hl with hl' | hl'
          · exact hsl m (List.mem_flatten.mpr ⟨l, hl', hml⟩)
          · subst hl'
            rcases List.mem_append.mp hml with hml' | hml'
            · by_cases htl : (((off : Int) - 1) % (bs : Int)).toNat < slots.length
              · exact hsl m (mem_flatten_of_mem_getD htl hml')
              · rw [getD_eq_nil_of_le (Nat.le_of_not_lt htl)] at hml'
                cases hml'
            · rcases List.mem_singleton.mp hml' with rfl
              exact hfe (h, n) (List.mem_cons_self _ _)
        have hfe' : ∀ p ∈ rest, p.2.key ≠ k :=
          fun p hp => hfe p (List.mem_cons_of_mem _ hp)
        have hrec := ih _ (idxSet index n.key
          { n with slot_index := Int.ofNat ((((off : Int) - 1) % (bs : Int)).toNat) })
          total off bs hslots' hfe'
        simpa [Ctb.promote, hle] using hrec
      · constructor
        · intro m hm
          exact hsl m (by simpa [Ctb.promote, hle] using hm)
        · intro p hp
          exact hfe p (by simpa [Ctb.promote, hle] using hp)

/-- A key absent from every stored node stays absent across `_tick`. -/
theorem Ctb.key_absent_tick {k : K} (s : Ctb.IndexedTimeWheel K V)
    (hks : k ∉ (Ctb.allNodes s).map (·.key)) :
    k ∉ (Ctb.allNodes (Ctb.tick s)).map (·.key) := by
  have hsl : ∀ m ∈ s.slots.flatten, m.key ≠ k := by
    intro m hm hmk
    exact hks (hmk ▸ List.mem_map_of_mem (·.key) (List.mem_append_left _ hm))
  have hfe : ∀ p ∈ s.future_events, p.2.key ≠ k := by
    intro p hp hpk
    exact hks (hpk ▸ List.mem_map_of_mem (·.key)
      (List.mem_append_right _ (List.mem_map_of_mem (·.2) hp)))
  have hp := Ctb.keys_promote_absent s.future_events s.slots s.index
    (s.total_ticks + 1) ((s.total_ticks + 1) % s.buffer_size) s.buffer_size hsl hfe
  intro hmem
  rcases List.mem_map.mp hmem with ⟨m, hm, hkey⟩
  rcases List.mem_append.mp hm with hm' | hm'
  · exact hp.1 m hm' hkey
  · rcases List.mem_map.mp hm' with ⟨p, hp', rfl⟩
    exact hp.2 p hp' hkey

/-- A key absent from every stored node stays absent across `pop_due_event`. -/
theorem Ctb.key_absent_pop {k : K} (s : Ctb.IndexedTimeWheel K V)
    (hks : k ∉ (Ctb.allNodes s).map (·.key)) :
    k ∉ (Ctb.allNodes (Ctb.pop_due_event s).2).map (·.key) := by
  rcases hsl : Ctb.slotAt s s.offset with _ | ⟨n, rest⟩
  · have hid : (Ctb.pop_due_event s).2 = s := by
      rw [Ctb.pop_due_event, hsl]
    rw [hid]
    exact hks
  · have hoff : s.offset < s.slots.length :=
      lt_length_of_getD_ne_nil (by rw [show s.slots.getD s.offset [] =
        Ctb.slotAt s s.offset from rfl, hsl]; simp)
    have hid : (Ctb.pop_due_event s).2
        = { s with
            slots := s.slots.set s.offset rest
            index := idxErase s.index n.key } := by
      rw [Ctb.pop_due_event, hsl]
    rw [hid]
    intro hmem
    rcases List.mem_map.mp hmem with ⟨m, hm, hkey⟩
    rcases List.mem_append.mp hm with hm' | hm'
    · rcases List.mem_flatten.mp hm' with ⟨l, hl, hml⟩
      rcases List.mem_or_eq_of_mem_set hl with hl' | hl'
      · exact hks (hkey ▸ List.mem_map_of_mem (·.key)
          (List.mem_append_left _ (List.mem_flatten.mpr ⟨l, hl', hml⟩)))
      · subst hl'
        have : m ∈ Ctb.slotAt s s.offset := by
          rw [hsl]; exact List.mem_cons_of_mem _ hml
        exact hks (hkey ▸ List.mem_map_of_mem (·.key)
          (List.mem_append_left _ (mem_flatten_of_mem_getD hoff this)))
    · exact hks (hkey ▸ List.mem_map_of_mem (·.key) (List.mem_append_right _ hm'))

/-- A pair returned by `pop_due_event` carries the key of a stored node. -/
theorem Ctb.pop_mem_keys {s : Ctb.IndexedTimeWheel K V} {p : K × V}
    (h : (Ctb.pop_due_event s).1 = some p) :
    p.1 ∈ (Ctb.allNodes s).map (·.key) := by
  rcases hsl : Ctb.slotAt s s.offset with _ | ⟨n, rest⟩
  · rw [Ctb.pop_due_event, hsl] at h
    cases h
  · rw [Ctb.pop_due_event, hsl] at h
    have hp : p = (n.key, n.value) := by
      cases h
      rfl
    have hoff : s.offset < s.slots.length :=
      lt_length_of_getD_ne_nil (by rw [show s.slots.getD s.offset [] =
        Ctb.slotAt s s.offset from rfl, hsl]; simp)
    have hn : n ∈ Ctb.allNodes s :=
      List.mem_append_left _
        (mem_flatten_of_mem_getD hoff (by rw [show s.slots.getD s.offset [] =
          Ctb.slotAt s s.offset from rfl, hsl]; exact List.mem_cons_self _ _))
    rw [hp]
    exact List.mem_map_of_mem (·.key) hn

/-- No tick/pop sequence can ever return a key that is absent from every
stored node. -/
theorem Ctb.runTP_no_ghost {k : K} :
    ∀ (ops : List Ctb.TPOp) (s : Ctb.IndexedTimeWheel K V),
      k ∉ (Ctb.allNodes s).map (·.key) →
      ∀ p ∈ (Ctb.runTP s ops).2, p.1 ≠ k := by
  intro ops
  induction ops with
  | nil =>
      intro s hks p hp
      cases hp
  | cons op rest ih =>
      intro s hks p hp
      cases op with
      | tickOp =>
          exact ih (Ctb.tick s) (Ctb.key_absent_tick s hks) p hp
      | popOp =>
          rcases hpop : Ctb.pop_due_event s with ⟨o, s2⟩
          have hs2 : s2 = (Ctb.pop_due_event s).2 := by rw [hpop]
          cases o with
          | none =>
              have hrun : Ctb.runTP s (.popOp :: rest) = Ctb.runTP s2 rest := by
                rw [Ctb.runTP, hpop]
              rw [hrun] at hp
              exact ih s2 (hs2 ▸ Ctb.key_absent_pop s hks) p hp
          | some q =>
              have hrun : Ctb.runTP s (.popOp :: rest)
                  = ((Ctb.runTP s2 rest).1, q :: (Ctb.runTP s2 rest).2) := by
                rw [Ctb.runTP, hpop]
              rw [hrun] at hp
              rcases List.mem_cons.mp hp with hp' | hp'
              · subst hp'
                intro hpk
                exact hks (hpk ▸ Ctb.pop_mem_keys
                  (by rw [hpop] : (Ctb.pop_due_event s).1 = some p))
              · exact ih s2 (hs2 ▸ Ctb.key_absent_pop s hks) p hp'

/-- Two schedules with the same in-horizon delay append to the same slot in
call order. -/
theorem Ctb.schedule_same_slot_fifo (s : Ctb.IndexedTimeWheel K V) (k1 k2 : K)
    (v1 v2 : V) (d : Nat) (hlen : s.slots.length = s.buffer_size)
    (hlk1 : idxLookup s.index k1 = none) (hlk2 : idxLookup s.index k2 = none)
    (hne : k1 ≠ k2) (hd : d < s.buffer_size) :
    (Ctb.schedule_with_delay s k1 v1 (d : Int)).2 = none ∧
    (Ctb.schedule_with_delay (Ctb.schedule_with_delay s k1 v1 (d : Int)).1 k2 v2 (d : Int)).2
      = none ∧
    Ctb.slotAt (Ctb.schedule_with_delay
        (Ctb.schedule_with_delay s k1 v1 (d : Int)).1 k2 v2 (d : Int)).1
        ((s.offset + d) % s.buffer_size)
      = Ctb.slotAt s ((s.offset + d) % s.buffer_size)
        ++ [⟨k1, v1, Int.ofNat ((s.offset + d) % s.buffer_size), s.total_ticks + d⟩,
            ⟨k2, v2, Int.ofNat ((s.offset + d) % s.buffer_size), s.total_ticks + d⟩] := by
  have hbs : 0 < s.buffer_size := by omega
  have ht : (s.offset + d) % s.buffer_size < s.buffer_size := Nat.mod_lt _ hbs
  have e1 := Ctb.schedule_in_wheel_eq s k1 v1 d hlk1 hd
  have hb1 : (Ctb.schedule_with_delay s k1 v1 (d : Int)).1.buffer_size
      = s.buffer_size := by rw [e1]
  have ho1 : (Ctb.schedule_with_delay s k1 v1 (d : Int)).1.offset = s.offset := by
    rw [e1]
  have htt1 : (Ctb.schedule_with_delay s k1 v1 (d : Int)).1.total_ticks
      = s.total_ticks := by rw [e1]
  have hi1 : (Ctb.schedule_with_delay s k1 v1 (d : Int)).1.index
      = s.index ++ [(k1, ⟨k1, v1, Int.ofNat ((s.offset + d) % s.buffer_size),
          s.total_ticks + d⟩)] := by rw [e1]
  have hsl1 : (Ctb.schedule_with_delay s k1 v1 (d : Int)).1.slots
      = s.slots.set ((s.offset + d) % s.buffer_size)
        (Ctb.slotAt s ((s.offset + d) % s.buffer_size)
          ++ [⟨k1, v1, Int.ofNat ((s.offset + d) % s.buffer_size),
                s.total_ticks + d⟩]) := by rw [e1]
  have hlk2' : idxLookup (Ctb.schedule_with_delay s k1 v1 (d : Int)).1.index k2
      = none := by
    rw [hi1, idxLookup_append_of_ne _ hne]
    exact hlk2
  have e2 := Ctb.schedule_in_wheel_eq (Ctb.schedule_with_delay s k1 v1 (d : Int)).1
    k2 v2 d hlk2' (by rw [hb1]; exact hd)
  refine ⟨by rw [e1], by rw [e2], ?_⟩
  have hsl2 : (Ctb.schedule_with_delay
      (Ctb.schedule_with_delay s k1 v1 (d : Int)).1 k2 v2 (d : Int)).1.slots
      = (Ctb.schedule_with_delay s k1 v1 (d : Int)).1.slots.set
          ((s.offset + d) % s.buffer_size)
          (Ctb.slotAt (Ctb.schedule_with_delay s k1 v1 (d : Int)).1
              ((s.offset + d) % s.buffer_size)
            ++ [⟨k2, v2, Int.ofNat ((s.offset + d) % s.buffer_size),
                  s.total_ticks + d⟩]) := by
    rw [e2, ho1, hb1, htt1]
  have hslot1 : Ctb.slotAt (Ctb.schedule_with_delay s k1 v1 (d : Int)).1
      ((s.offset + d) % s.buffer_size)
      = Ctb.slotAt s ((s.offset + d) % s.buffer_size)
        ++ [⟨k1, v1, Int.ofNat ((s.offset + d) % s.buffer_size),
              s.total_ticks + d⟩] := by
    have ht' : (s.offset + d) % s.buffer_size < s.slots.length := by
      rw [hlen]; exact ht
    simp [Ctb.slotAt, hsl1, List.getD, List.getElem?_set_self, ht']
  have hlen1 : ((s.offset + d) % s.buffer_size)
      < (Ctb.schedule_with_delay s k1 v1 (d : Int)).1.slots.length := by
    rw [hsl1, List.length_set, hlen]
    exact ht
  have hslot2 : Ctb.slotAt (Ctb.schedule_with_delay
      (Ctb.schedule_with_delay s k1 v1 (d : Int)).1 k2 v2 (d : Int)).1
      ((s.offset + d) % s.buffer_size)
      = Ctb.slotAt (Ctb.schedule_with_delay s k1 v1 (d : Int)).1
          ((s.offset + d) % s.buffer_size)
        ++ [⟨k2, v2, Int.ofNat ((s.offset + d) % s.buffer_size),
              s.total_ticks + d⟩] := by
    simp [Ctb.slotAt, hsl2, List.getD, List.getElem?_set_self, hlen1]
  rw [hslot2, hslot1, List.append_assoc]
  rfl

/-- **C4.**  After every sequence of `schedule_with_delay` /
`schedule_at_absolute_hour` / `pop_due_event` / `remove` / `_tick`
operations from a fresh wheel, a key is present in the Index iff exactly one
node with that key is stored in a wheel slot or the overflow list, and
`len()` equals the number of stored nodes.  (No tombstone flag exists in
this implementation, so the stored nodes are exactly the live — not
cancelled, not popped — nodes: `remove` and `pop_due_event` delete
physically.) -/
theorem c4_index_iff_live_nodes (bs : Nat) (hbs : 0 < bs)
    (ops : List (Ctb.Op String String)) (k : String) :
    (Ctb.containsKey (Ctb.runOps (Ctb.init String String bs) ops) k = true ↔
      (Ctb.allNodes (Ctb.runOps (Ctb.init String String bs) ops)).countP
        (fun n => decide (n.key = k)) = 1) ∧
    Ctb.size (Ctb.runOps (Ctb.init String String bs) ops)
      = (Ctb.allNodes (Ctb.runOps (Ctb.init String String bs) ops)).length :=
  Ctb.WF_index_iff _
    (Ctb.WF_runOps ops _ (Ctb.WF_init String String bs hbs)) k

/-- Witness for `c4_index_iff_live_nodes`: buffer size `10` and the sequence
schedule `"A"` at delay 3, schedule `"B"` at delay 15 (overflow), tick, pop,
remove `"B"`, checked for key `"A"`. -/
theorem c4_index_iff_live_nodes_witness :
    (Ctb.containsKey (Ctb.runOps (Ctb.init String String 10)
        [.sched "A" "vA" 3, .sched "B" "vB" 15, .tickOp, .popOp, .rem "B"]) "A"
        = true ↔
      (Ctb.allNodes (Ctb.runOps (Ctb.init String String 10)
        [.sched "A" "vA" 3, .sched "B" "vB" 15, .tickOp, .popOp,
          .rem "B"])).countP (fun n => decide (n.key = "A")) = 1) ∧
    Ctb.size (Ctb.runOps (Ctb.init String String 10)
        [.sched "A" "vA" 3, .sched "B" "vB" 15, .tickOp, .popOp, .rem "B"])
      = (Ctb.allNodes (Ctb.runOps (Ctb.init String String 10)
          [.sched "A" "vA" 3, .sched "B" "vB" 15, .tickOp, .popOp,
            .rem "B"])).length :=
  c4_index_iff_live_nodes 10 (by decide)
    [.sched "A" "vA" 3, .sched "B" "vB" 15, .tickOp, .popOp, .rem "B"] "A"

/-- **C5.**  FIFO among nodes due at the identical tick: two in-horizon
schedules with the same delay append to the same slot in call order;
`pop_due_event` drains a slot front to back; overflow insertion is stable
among equal due hours (sorted-list takeWhile/dropWhile form); and the
concrete scenarios hold — `"B"`, `"C"` at delay `3` pop as `"B"` then `"C"`
then none after `advance_to_next_event` consumes `3` ticks, and `"B"`, `"C"`
at delay `15` (both through the overflow store) pop as `"B"` then `"C"` in
both wheel variants. -/
theorem c5_fifo_same_due :
    (∀ (s : Ctb.IndexedTimeWheel String String) (k1 k2 v1 v2 : String) (d : Nat),
      s.slots.length = s.buffer_size →
      idxLookup s.index k1 = none → idxLookup s.index k2 = none →
      k1 ≠ k2 → d < s.buffer_size →
      (Ctb.schedule_with_delay s k1 v1 (d : Int)).2 = none ∧
      (Ctb.schedule_with_delay
        (Ctb.schedule_with_delay s k1 v1 (d : Int)).1 k2 v2 (d : Int)).2 = none ∧
      Ctb.slotAt (Ctb.schedule_with_delay
          (Ctb.schedule_with_delay s k1 v1 (d : Int)).1 k2 v2 (d : Int)).1
          ((s.offset + d) % s.buffer_size)
        = Ctb.slotAt s ((s.offset + d) % s.buffer_size)
          ++ [⟨k1, v1, Int.ofNat ((s.offset + d) % s.buffer_size), s.total_ticks + d⟩,
              ⟨k2, v2, Int.ofNat ((s.offset + d) % s.buffer_size), s.total_ticks + d⟩]) ∧
    (∀ (s : Ctb.IndexedTimeWheel String String), s.offset < s.slots.length →
      Ctb.popMany (Ctb.slotAt s s.offset).length s
        = (Ctb.slotAt s s.offset).map (fun n => (n.key, n.value))) ∧
    (∀ (fe : List (Nat × EventNode String String)) (h : Nat)
        (n : EventNode String String),
      List.Pairwise (fun a b => a.1 ≤ b.1) fe →
      insertFutureEvent fe h n
        = fe.takeWhile (fun p => decide (p.1 ≤ h))
          ++ (h, n) :: fe.dropWhile (fun p => decide (p.1 ≤ h))) ∧
    ((Ctb.advance_to_next_event (Ctb.schedule_with_delay
        (Ctb.schedule_with_delay (Ctb.init String String 10) "B" "vB" 3).1
        "C" "vC" 3).1).2 = some 3 ∧
      Ctb.popMany 3 (Ctb.advance_to_next_event (Ctb.schedule_with_delay
        (Ctb.schedule_with_delay (Ctb.init String String 10) "B" "vB" 3).1
        "C" "vC" 3).1).1 = [("B", "vB"), ("C", "vC")]) ∧
    Ctb.popMany 3 (Nat.iterate Ctb.tick 24 (Ctb.schedule_with_delay
        (Ctb.schedule_with_delay (Ctb.init String String 10) "B" "vB" 15).1
        "C" "vC" 15).1) = [("B", "vB"), ("C", "vC")] ∧
    ((Cbw.gwRun 15 ((0, (Cbw.schedule_with_delay 0 (Cbw.schedule_with_delay 0
        (Cbw.init String String 10) "B" "vB" 15).1 "C" "vC" 15).1), none)).2 = none ∧
      (Cbw.pop_due_event (Cbw.gwRun 15 ((0, (Cbw.schedule_with_delay 0
        (Cbw.schedule_with_delay 0
          (Cbw.init String String 10) "B" "vB" 15).1 "C" "vC" 15).1), none)).1.2).1
        = some ("B", "vB") ∧
      (Cbw.pop_due_event (Cbw.pop_due_event (Cbw.gwRun 15 ((0,
        (Cbw.schedule_with_delay 0 (Cbw.schedule_with_delay 0
          (Cbw.init String String 10) "B" "vB" 15).1 "C" "vC" 15).1), none)).1.2).2).1
        = some ("C", "vC") ∧
      (Cbw.pop_due_event (Cbw.pop_due_event (Cbw.pop_due_event (Cbw.gwRun 15 ((0,
        (Cbw.schedule_with_delay 0 (Cbw.schedule_with_delay 0
          (Cbw.init String String 10) "B" "vB" 15).1 "C" "vC" 15).1), none)).1.2).2).2).1
        = none) := by
  refine ⟨?_, ?_, ?_, by decide, by decide, by decide⟩
  · intro s k1 k2 v1 v2 d hlen hlk1 hlk2 hne hd
    exact Ctb.schedule_same_slot_fifo s k1 k2 v1 v2 d hlen hlk1 hlk2 hne hd
  · intro s hoff
    exact Ctb.popMany_slot (Ctb.slotAt s s.offset) s hoff rfl
  · intro fe h n hs
    exact insertFutureEvent_sorted h n fe hs

/-- Witness for `c5_fifo_same_due` at concrete inputs: the fresh wheel with
`"B"`/`"C"` at delay `3`, its post-schedule state for the drain, and a
one-entry sorted overflow list. -/
theorem c5_fifo_same_due_witness :
    (Ctb.schedule_with_delay (Ctb.init String String 10) "B" "vB" ((3 : Nat) : Int)).2
      = none ∧
    Ctb.slotAt (Ctb.schedule_with_delay
        (Ctb.schedule_with_delay (Ctb.init String String 10) "B" "vB"
          ((3 : Nat) : Int)).1 "C" "vC" ((3 : Nat) : Int)).1
        (((Ctb.init String String 10).offset + 3) % (Ctb.init String String 10).buffer_size)
      = Ctb.slotAt (Ctb.init String String 10)
          (((Ctb.init String String 10).offset + 3) %
            (Ctb.init String String 10).buffer_size)
        ++ [⟨"B", "vB", Int.ofNat (((Ctb.init String String 10).offset + 3) %
              (Ctb.init String String 10).buffer_size),
              (Ctb.init String String 10).total_ticks + 3⟩,
            ⟨"C", "vC", Int.ofNat (((Ctb.init String String 10).offset + 3) %
              (Ctb.init String String 10).buffer_size),
              (Ctb.init String String 10).total_ticks + 3⟩] ∧
    Ctb.popMany (Ctb.slotAt (Ctb.init String String 10)
        (Ctb.init String String 10).offset).length (Ctb.init String String 10)
      = (Ctb.slotAt (Ctb.init String String 10)
          (Ctb.init String String 10).offset).map (fun n => (n.key, n.value)) ∧
    insertFutureEvent
        [(12, (⟨"X", "vX", -1, 12⟩ : EventNode String String))] 12 ⟨"Y", "vY", -1, 12⟩
      = ([(12, (⟨"X", "vX", -1, 12⟩ : EventNode String String))].takeWhile
          (fun p => decide (p.1 ≤ 12)))
        ++ (12, (⟨"Y", "vY", -1, 12⟩ : EventNode String String))
          :: ([(12, (⟨"X", "vX", -1, 12⟩ : EventNode String String))].dropWhile
            (fun p => decide (p.1 ≤ 12))) :=
  ⟨(c5_fifo_same_due.1 (Ctb.init String String 10) "B" "C" "vB" "vC" 3
      (by decide) (by decide) (by decide) (by decide) (by decide)).1,
   (c5_fifo_same_due.1 (Ctb.init String String 10) "B" "C" "vB" "vC" 3
      (by decide) (by decide) (by decide) (by decide) (by decide)).2.2,
   c5_fifo_same_due.2.1 (Ctb.init String String 10) (by decide),
   c5_fifo_same_due.2.2.1 [(12, ⟨"X", "vX", -1, 12⟩)] 12 ⟨"Y", "vY", -1, 12⟩
     (by decide)⟩

/-! ## Claim theorems -/

/-- **C1.**  The claimed `_tick` contract (promote exactly the entries whose
due time equals the new time plus `buffer_size - 1`, into slot
`(offset - 1) mod buffer_size`) and its concrete scenario hold for the
callback-clocked wheel driven by `game_world._advance_tick` (first
conjuncts): key `"A"` scheduled with delay `15` at time `0` goes to overflow,
is promoted on the step into its horizon (time `6`), sits in the wheel
through time `15`, and `pop_due_event` at time `15` returns
`("A", "valA")`.  The self-clocked `Ctb` `_tick`, however, promotes an entry
only once `total_ticks` reaches its due hour and still inserts it at slot
`(offset - 1) mod buffer_size` (last conjuncts): `"A"` is still in overflow
at `total_ticks = 6` and `14`, enters the wheel only at `total_ticks = 15`,
`pop_due_event` at `total_ticks = 15` returns `none` even though the key is
still indexed, and the event only pops at `total_ticks = 24`. -/
theorem c1_promotion_scenario :
    (Cbw.schedule_with_delay 0 (Cbw.init String String 10) "A" "valA" 15).2 = none ∧
    ((Cbw.schedule_with_delay 0 (Cbw.init String String 10) "A" "valA" 15).1.future_events.map
      (fun p => (p.1, p.2.key)) = [(15, "A")]) ∧
    (Cbw.gwRun 5
      ((0, (Cbw.schedule_with_delay 0 (Cbw.init String String 10) "A" "valA" 15).1),
        none)).1.2.future_events.length = 1 ∧
    (Cbw.gwRun 6
      ((0, (Cbw.schedule_with_delay 0 (Cbw.init String String 10) "A" "valA" 15).1),
        none)).1.2.future_events = [] ∧
    (Cbw.gwRun 15
      ((0, (Cbw.schedule_with_delay 0 (Cbw.init String String 10) "A" "valA" 15).1),
        none)).2 = none ∧
    (Cbw.gwRun 15
      ((0, (Cbw.schedule_with_delay 0 (Cbw.init String String 10) "A" "valA" 15).1),
        none)).1.1 = 15 ∧
    ("A" ∈ ((Cbw.gwRun 15
      ((0, (Cbw.schedule_with_delay 0 (Cbw.init String String 10) "A" "valA" 15).1),
        none)).1.2.slots.flatten.map (·.key))) ∧
    (Cbw.pop_due_event (Cbw.gwRun 15
      ((0, (Cbw.schedule_with_delay 0 (Cbw.init String String 10) "A" "valA" 15).1),
        none)).1.2).1 = some ("A", "valA") ∧
    (Nat.iterate Ctb.tick 6
      (Ctb.schedule_with_delay (Ctb.init String String 10) "A" "valA" 15).1).future_events.length
      = 1 ∧
    (Nat.iterate Ctb.tick 14
      (Ctb.schedule_with_delay (Ctb.init String String 10) "A" "valA" 15).1).future_events.length
      = 1 ∧
    (Nat.iterate Ctb.tick 15
      (Ctb.schedule_with_delay (Ctb.init String String 10) "A" "valA" 15).1).future_events = [] ∧
    (Nat.iterate Ctb.tick 15
      (Ctb.schedule_with_delay (Ctb.init String String 10) "A" "valA" 15).1).total_ticks = 15 ∧
    Ctb.containsKey (Nat.iterate Ctb.tick 15
      (Ctb.schedule_with_delay (Ctb.init String String 10) "A" "valA" 15).1) "A" = true ∧
    (Ctb.pop_due_event (Nat.iterate Ctb.tick 15
      (Ctb.schedule_with_delay (Ctb.init String String 10) "A" "valA" 15).1)).1 = none ∧
    (Ctb.pop_due_event (Nat.iterate Ctb.tick 24
      (Ctb.schedule_with_delay (Ctb.init String String 10) "A" "valA" 15).1)).1
      = some ("A", "valA") := by
  decide

/-- **C10.**  `has_any_events()` returns `True` in every state of the
callback-clocked wheel — its body is a constant `return True` — so in
particular it returns `True` on the freshly constructed wheel with every
slot empty and an empty overflow list. -/
theorem c10_has_any_events_true :
    (∀ (K V : Type) (w : Cbw.IndexedTimeWheel K V), Cbw.has_any_events w = true) ∧
    Cbw.has_any_events (Cbw.init String String 10) = true ∧
    (Cbw.init String String 10).slots.flatten = [] ∧
    (Cbw.init String String 10).future_events = [] := by
  exact ⟨fun _ _ _ => rfl, rfl, by decide, rfl⟩

/-- **C3 counterexample.**  Removing a key that lives in the overflow store
deletes its physical entry immediately: with buffer size `10`, after
scheduling `"A"` with delay `15` the overflow list has one entry, and
`remove("A")` returns the value, empties the index — and leaves the overflow
list *empty*, not holding a tombstoned entry as the claim states (`_EventNode`
has no tombstone flag at all). -/
theorem c3_counterexample :
    (Ctb.schedule_with_delay (Ctb.init String String 10) "A" "vA" 15).1.future_events.length
      = 1 ∧
    (Ctb.remove (Ctb.schedule_with_delay (Ctb.init String String 10) "A" "vA" 15).1 "A").1
      = some "vA" ∧
    (Ctb.remove (Ctb.schedule_with_delay
      (Ctb.init String String 10) "A" "vA" 15).1 "A").2.future_events = [] ∧
    Ctb.containsKey
      (Ctb.remove (Ctb.schedule_with_delay
        (Ctb.init String String 10) "A" "vA" 15).1 "A").2 "A" = false ∧
    (Cbw.schedule_with_delay 0 (Cbw.init String String 10) "A" "vA" 15).1.future_events.length
      = 1 ∧
    (Cbw.remove (Cbw.schedule_with_delay 0
      (Cbw.init String String 10) "A" "vA" 15).1 "A").2.future_events = [] := by
  decide

/-- **C3 (amended).**  For a key whose node resides in the overflow store,
`remove` deletes the key from the Index immediately (`contains`/`get` reflect
the cancellation instantly) and also physically deletes the entry from the
overflow list in the same call — there is no tombstone flag and no lazy
deletion — so with at most one overflow entry under the key, none remains
afterwards and no later promotion can encounter a cancelled entry; the wheel
slots are untouched. -/
theorem c3_remove_overflow_eager (s : Ctb.IndexedTimeWheel String String)
    (k : String) (n : EventNode String String)
    (hlk : idxLookup s.index k = some n) (hsi : n.slot_index = -1)
    (hnd : (s.index.map (·.1)).Nodup) :
    Ctb.remove s k = (some n.value,
      { s with
          future_events := Ctb.eraseFutureKey k s.future_events
          index := idxErase s.index k }) ∧
    Ctb.containsKey (Ctb.remove s k).2 k = false ∧
    Ctb.get (Ctb.remove s k).2 k = none ∧
    (Ctb.remove s k).2.slots = s.slots ∧
    ((s.future_events.countP fun p => decide (p.2.key = k)) ≤ 1 →
      ((Ctb.remove s k).2.future_events.countP fun p => decide (p.2.key = k)) = 0) := by
  have hrm : Ctb.remove s k = (some n.value,
      { s with
          future_events := Ctb.eraseFutureKey k s.future_events
          index := idxErase s.index k }) := by
    rw [Ctb.remove, hlk]
    dsimp only
    rw [if_pos hsi]
  refine ⟨hrm, ?_, ?_, by rw [hrm], ?_⟩
  · rw [hrm]
    simp [Ctb.containsKey, idxLookup_idxErase_self hnd]
  · rw [hrm]
    simp [Ctb.get, idxLookup_idxErase_self hnd]
  · intro hle
    rw [hrm]
    show (Ctb.eraseFutureKey k s.future_events).countP
      (fun p => decide (p.2.key = k)) = 0
    rw [countP_pair_key_map, Ctb.eraseFutureKey_map_key]
    refine countP_eraseKey_zero ?_
    rw [← countP_pair_key_map]
    exact hle

/-- Witness for `c3_remove_overflow_eager`: the wheel holding `"A"` at
overflow delay `15`. -/
theorem c3_remove_overflow_eager_witness :
    Ctb.containsKey (Ctb.remove
        (Ctb.schedule_with_delay (Ctb.init String String 10) "A" "vA" 15).1 "A").2 "A"
      = false ∧
    (Ctb.remove (Ctb.schedule_with_delay
        (Ctb.init String String 10) "A" "vA" 15).1 "A").2.slots
      = (Ctb.schedule_with_delay (Ctb.init String String 10) "A" "vA" 15).1.slots ∧
    (((Ctb.schedule_with_delay (Ctb.init String String 10) "A" "vA"
        15).1.future_events.countP fun p => decide (p.2.key = "A")) ≤ 1 →
      ((Ctb.remove (Ctb.schedule_with_delay (Ctb.init String String 10) "A" "vA"
        15).1 "A").2.future_events.countP fun p => decide (p.2.key = "A")) = 0) :=
  ⟨(c3_remove_overflow_eager
      (Ctb.schedule_with_delay (Ctb.init String String 10) "A" "vA" 15).1 "A"
      ⟨"A", "vA", -1, 15⟩ (by decide) (by decide) (by decide)).2.1,
   (c3_remove_overflow_eager
      (Ctb.schedule_with_delay (Ctb.init String String 10) "A" "vA" 15).1 "A"
      ⟨"A", "vA", -1, 15⟩ (by decide) (by decide) (by decide)).2.2.2.1,
   (c3_remove_overflow_eager
      (Ctb.schedule_with_delay (Ctb.init String String 10) "A" "vA" 15).1 "A"
      ⟨"A", "vA", -1, 15⟩ (by decide) (by decide) (by decide)).2.2.2.2⟩

/-- **C6 counterexample.**  The self-clocked `Ctb` `_tick` does not check the
current slot at all: with `"Z"` scheduled at delay `0` the current slot is
non-empty, yet `_tick` neither raises nor leaves the state unchanged — it
advances `total_ticks` to `1` and `offset` to `1` (the claim says every
tick on a non-empty current slot aborts with an error before mutating). -/
theorem c6_counterexample :
    Ctb.is_current_slot_empty
      (Ctb.schedule_with_delay (Ctb.init String String 10) "Z" "vZ" 0).1 = false ∧
    (Ctb.tick (Ctb.schedule_with_delay
      (Ctb.init String String 10) "Z" "vZ" 0).1).total_ticks = 1 ∧
    (Ctb.tick (Ctb.schedule_with_delay
      (Ctb.init String String 10) "Z" "vZ" 0).1).offset = 1 ∧
    Ctb.tick (Ctb.schedule_with_delay (Ctb.init String String 10) "Z" "vZ" 0).1
      ≠ (Ctb.schedule_with_delay (Ctb.init String String 10) "Z" "vZ" 0).1 := by
  decide

/-- Case analysis on the bounded scan loop of `advance_to_next_event`: with
`fuel` inspections left and `t` ticks consumed so far, the loop either stops
at the first non-empty current slot within `fuel` inspections, or runs out of
fuel with every inspected slot empty and raises. -/
theorem Ctb.advanceGo_cases {K V : Type} [DecidableEq K] :
    ∀ (fuel t : Nat) (s : Ctb.IndexedTimeWheel K V),
    (∃ k, k < fuel ∧
      Ctb.advanceGo fuel s t = (Nat.iterate Ctb.tick k s, some (t + k)) ∧
      Ctb.is_current_slot_empty (Nat.iterate Ctb.tick k s) = false ∧
      ∀ j, j < k → Ctb.is_current_slot_empty (Nat.iterate Ctb.tick j s) = true) ∨
    (Ctb.advanceGo fuel s t = (Nat.iterate Ctb.tick fuel s, none) ∧
      ∀ j, j < fuel → Ctb.is_current_slot_empty (Nat.iterate Ctb.tick j s) = true) := by
  intro fuel
  induction fuel with
  | zero =>
      intro t s
      exact Or.inr ⟨rfl, fun j hj => absurd hj (Nat.not_lt_zero j)⟩
  | succ fuel ih =>
      intro t s
      by_cases hemp : Ctb.is_current_slot_empty s = true
      · rcases ih (t + 1) (Ctb.tick s) with ⟨k, hk, heq, hne, hall⟩ | ⟨heq, hall⟩
        · refine Or.inl ⟨k + 1, Nat.succ_lt_succ hk, ?_, ?_, ?_⟩
          · rw [Ctb.advanceGo, if_pos hemp, heq, Function.iterate_succ_apply]
            congr 2
            omega
          · rwa [Function.iterate_succ_apply]
          · intro j hj
            cases j with
            | zero => exact hemp
            | succ j =>
                rw [Function.iterate_succ_apply]
                exact hall j (Nat.lt_of_succ_lt_succ hj)
        · refine Or.inr ⟨?_, ?_⟩
          · rw [Ctb.advanceGo, if_pos hemp, heq, Function.iterate_succ_apply]
          · intro j hj
            cases j with
            | zero => exact hemp
            | succ j =>
                rw [Function.iterate_succ_apply]
                exact hall j (Nat.lt_of_succ_lt_succ hj)
      · refine Or.inl ⟨0, Nat.succ_pos fuel, ?_, ?_, ?_⟩
        · rw [Ctb.advanceGo, if_neg hemp]
          simp
        · simpa using eq_false_of_ne_true hemp
        · intro j hj
          exact absurd hj (Nat.not_lt_zero j)

/-- **C2.**  `advance_to_next_event` inspects at most `buffer_size` slots:
for every starting state it either stops at the first non-empty current slot,
reached after `k < buffer_size` ticks, returning exactly `k`, or every one of
the `buffer_size` inspected current slots was empty and it raises the
full-cycle `RuntimeError` (embedded as `none`) instead of looping on or
returning normally; in particular the fresh wheel — all slots empty and an
empty overflow list — raises that error. -/
theorem c2_advance_bounded :
    (∀ (s : Ctb.IndexedTimeWheel String String),
      (∃ k, k < s.buffer_size ∧
        Ctb.advance_to_next_event s = (Nat.iterate Ctb.tick k s, some k) ∧
        Ctb.is_current_slot_empty (Nat.iterate Ctb.tick k s) = false ∧
        ∀ j, j < k → Ctb.is_current_slot_empty (Nat.iterate Ctb.tick j s) = true) ∨
      (Ctb.advance_to_next_event s = (Nat.iterate Ctb.tick s.buffer_size s, none) ∧
        ∀ j, j < s.buffer_size →
          Ctb.is_current_slot_empty (Nat.iterate Ctb.tick j s) = true)) ∧
    (Ctb.advance_to_next_event (Ctb.init String String 10)).2 = none ∧
    (Ctb.init String String 10).slots.flatten = [] ∧
    (Ctb.init String String 10).future_events = [] := by
  refine ⟨?_, by decide, by decide, rfl⟩
  intro s
  have h := Ctb.advanceGo_cases s.buffer_size 0 s
  simpa [Ctb.advance_to_next_event] using h

/-- Witness for `c2_advance_bounded` at a concrete state: on the wheel
holding `"B"` at delay `3` the scan stops after `3` ticks. -/
theorem c2_advance_bounded_witness :
    (∃ k, k < (Ctb.schedule_with_delay (Ctb.init String String 10) "B" "vB" 3).1.buffer_size ∧
      Ctb.advance_to_next_event
          (Ctb.schedule_with_delay (Ctb.init String String 10) "B" "vB" 3).1
        = (Nat.iterate Ctb.tick k
            (Ctb.schedule_with_delay (Ctb.init String String 10) "B" "vB" 3).1, some k) ∧
      Ctb.is_current_slot_empty (Nat.iterate Ctb.tick k
        (Ctb.schedule_with_delay (Ctb.init String String 10) "B" "vB" 3).1) = false ∧
      ∀ j, j < k → Ctb.is_current_slot_empty (Nat.iterate Ctb.tick j
        (Ctb.schedule_with_delay (Ctb.init String String 10) "B" "vB" 3).1) = true) ∨
    (Ctb.advance_to_next_event
        (Ctb.schedule_with_delay (Ctb.init String String 10) "B" "vB" 3).1
      = (Nat.iterate Ctb.tick
          (Ctb.schedule_with_delay (Ctb.init String String 10) "B" "vB" 3).1.buffer_size
          (Ctb.schedule_with_delay (Ctb.init String String 10) "B" "vB" 3).1, none) ∧
      ∀ j, j < (Ctb.schedule_with_delay (Ctb.init String String 10) "B" "vB" 3).1.buffer_size →
        Ctb.is_current_slot_empty (Nat.iterate Ctb.tick j
          (Ctb.schedule_with_delay (Ctb.init String String 10) "B" "vB" 3).1) = true) :=
  c2_advance_bounded.1 (Ctb.schedule_with_delay (Ctb.init String String 10) "B" "vB" 3).1

/-- The promotion loop of `advance_wheel` can only fail with
`promote_mismatch`, never with `slot_not_empty`. -/
theorem Cbw.promote_no_slot_error {K V : Type} [DecidableEq K] (now off bs : Nat)
    (fe : List (Nat × EventNode K V)) (slots : List (List (EventNode K V)))
    (index : List (K × EventNode K V)) :
    (Cbw.promote now off bs fe slots index).2 ≠ some .slot_not_empty := by
  induction fe generalizing slots index with
  | nil => simp [Cbw.promote]
  | cons p rest ih =>
      obtain ⟨h, n⟩ := p
      by_cases hle : h ≤ now + bs - 1
      · by_cases heq : h = now + bs - 1
        · simpa [Cbw.promote, hle, heq] using ih _ _
        · simp [Cbw.promote, hle, heq]
      · simp [Cbw.promote, hle]

/-- **C6 (amended).**  For `TimeWheel._tick` a non-empty current slot raises
`RuntimeError` before any field is touched (the returned state is the input
state) and an empty current slot never raises; for `advance_wheel` a
non-empty current slot fails its leading assertion with the state unchanged,
and with an empty current slot that assertion can never fire.  (The
self-clocked `Ctb` `_tick` performs no such check — see the counterexample —
though its only in-module caller, `advance_to_next_event`, invokes it on
empty current slots only.) -/
theorem c6_tick_guard :
    (∀ (V : Type) (s : Tw.TimeWheel V),
        Tw.is_current_slot_empty s = false → Tw.tick s = (s, some ())) ∧
    (∀ (V : Type) (s : Tw.TimeWheel V),
        Tw.is_current_slot_empty s = true → (Tw.tick s).2 = none) ∧
    (∀ (now : Nat) (w : Cbw.IndexedTimeWheel String String),
        Cbw.is_current_slot_empty w = false →
          Cbw.advance_wheel now w = (w, some .slot_not_empty)) ∧
    (∀ (now : Nat) (w : Cbw.IndexedTimeWheel String String),
        Cbw.is_current_slot_empty w = true →
          (Cbw.advance_wheel now w).2 ≠ some .slot_not_empty) := by
  refine ⟨?_, ?_, ?_, ?_⟩
  · intro V s h
    simp [Tw.tick, h]
  · intro V s h
    simp [Tw.tick, h]
  · intro now w h
    simp [Cbw.advance_wheel, h]
  · intro now w h
    simpa [Cbw.advance_wheel, h] using Cbw.promote_no_slot_error now _ _ _ _ _

/-- Witness for `c6_tick_guard` at concrete states: a one-slot `TimeWheel`
holding `"e"`, the fresh empty `TimeWheel`, the callback wheel holding `"Z"`
in its current slot, and the fresh callback wheel. -/
theorem c6_tick_guard_witness :
    Tw.tick ({ buffer_size := 1, slots := [["e"]], offset := 0, total_ticks := 0 } :
        Tw.TimeWheel String)
      = (({ buffer_size := 1, slots := [["e"]], offset := 0, total_ticks := 0 } :
        Tw.TimeWheel String), some ()) ∧
    (Tw.tick (Tw.init String 10)).2 = none ∧
    Cbw.advance_wheel 0 (Cbw.schedule_with_delay 0 (Cbw.init String String 10) "Z" "vZ" 0).1
      = ((Cbw.schedule_with_delay 0 (Cbw.init String String 10) "Z" "vZ" 0).1,
          some .slot_not_empty) ∧
    (Cbw.advance_wheel 1 (Cbw.init String String 10)).2 ≠ some .slot_not_empty :=
  ⟨c6_tick_guard.1 String _ (by decide),
   c6_tick_guard.2.1 String _ (by decide),
   c6_tick_guard.2.2.1 0 _ (by decide),
   c6_tick_guard.2.2.2 1 _ (by decide)⟩

/-- **C8.**  Every caller-contract violation is reported as an explicit error
with the structure left unchanged: a duplicate key on `schedule_with_delay`,
a negative delay, a past absolute hour on `schedule_at_absolute_hour`, and
`initialize_ctb` on a manager with no characters. -/
theorem c8_contract_errors :
    (∀ (s : Ctb.IndexedTimeWheel String String) (k v : String) (d : Int),
        (idxLookup s.index k).isSome = true →
          Ctb.schedule_with_delay s k v d = (s, some .duplicate_key)) ∧
    (∀ (s : Ctb.IndexedTimeWheel String String) (k v : String) (d : Int),
        idxLookup s.index k = none → d < 0 →
          Ctb.schedule_with_delay s k v d = (s, some .negative_delay)) ∧
    (∀ (s : Ctb.IndexedTimeWheel String String) (k v : String) (h : Int),
        h < (s.total_ticks : Int) →
          Ctb.schedule_at_absolute_hour s k v h = (s, some .past_time)) ∧
    (∀ (C : Type) (act : C → Bool) (nt : C → Nat → Nat) (now : Nat)
        (m : Mgr.CTBManager C), m.characters = [] →
          Mgr.initialize_ctb act nt now m = (m, some ())) := by
  refine ⟨?_, ?_, ?_, ?_⟩
  · intro s k v d h
    simp [Ctb.schedule_with_delay, h]
  · intro s k v d h hd
    simp [Ctb.schedule_with_delay, h, hd, asymm hd]
  · intro s k v h hlt
    simp [Ctb.schedule_at_absolute_hour, hlt]
  · intro C act nt now m h
    simp [Mgr.initialize_ctb, h]

/-- Witness for `c8_contract_errors`: the wheel already holding `"Z"` rejects
a second `"Z"` unchanged, a fresh wheel rejects delay `-1` unchanged, the
wheel at `total_ticks = 15` rejects absolute hour `3` unchanged, and the
empty manager fails `initialize_ctb` unchanged. -/
theorem c8_contract_errors_witness :
    Ctb.schedule_with_delay
        (Ctb.schedule_with_delay (Ctb.init String String 10) "Z" "vZ" 0).1 "Z" "w" 3
      = ((Ctb.schedule_with_delay (Ctb.init String String 10) "Z" "vZ" 0).1,
          some .duplicate_key) ∧
    Ctb.schedule_with_delay (Ctb.init String String 10) "N" "w" (-1)
      = (Ctb.init String String 10, some .negative_delay) ∧
    Ctb.schedule_at_absolute_hour
        (Nat.iterate Ctb.tick 15 (Ctb.init String String 10)) "P" "w" 3
      = (Nat.iterate Ctb.tick 15 (Ctb.init String String 10), some .past_time) ∧
    Mgr.initialize_ctb (fun _ => true) (fun _ t => t + 1) 0
        ({ characters := [], is_initialized := false, schedule_log := [] } :
          Mgr.CTBManager Nat)
      = (({ characters := [], is_initialized := false, schedule_log := [] } :
          Mgr.CTBManager Nat), some ()) :=
  ⟨c8_contract_errors.1 _ _ _ _ (by decide),
   c8_contract_errors.2.1 _ _ _ _ (by decide) (by decide),
   c8_contract_errors.2.2.1 _ _ _ _ (by decide),
   c8_contract_errors.2.2.2 Nat _ _ _ _ rfl⟩

/-- **C9 (amended).**  Scheduling with delay `0` appends the new node to the
*current* slot (the slot at `offset`), so the event is due in the current
tick, with no intervening tick; the immediately following `pop_due_event`
returns exactly that `(key, value)` pair provided the current slot was empty
beforehand (otherwise the pop serves the slot's earlier entries first — see
the counterexample). -/
theorem c9_zero_delay (s : Ctb.IndexedTimeWheel String String) (k v : String)
    (hlen : s.slots.length = s.buffer_size) (hoff : s.offset < s.buffer_size)
    (hlk : idxLookup s.index k = none) :
    (Ctb.schedule_with_delay s k v 0).2 = none ∧
    (Ctb.schedule_with_delay s k v 0).1.offset = s.offset ∧
    Ctb.slotAt (Ctb.schedule_with_delay s k v 0).1 s.offset
      = Ctb.slotAt s s.offset ++ [⟨k, v, Int.ofNat s.offset, s.total_ticks⟩] ∧
    (Ctb.slotAt s s.offset = [] →
      (Ctb.pop_due_event (Ctb.schedule_with_delay s k v 0).1).1 = some (k, v)) := by
  have hbs : 0 < s.buffer_size := Nat.lt_of_le_of_lt (Nat.zero_le _) hoff
  have hlk' : (idxLookup s.index k).isSome = false := by simp [hlk]
  have htarget : (s.offset + (0 : Int).toNat) % s.buffer_size = s.offset := by
    simpa using Nat.mod_eq_of_lt hoff
  have hsched : Ctb.schedule_with_delay s k v 0
      = ({ s with
            slots := s.slots.set s.offset
              (Ctb.slotAt s s.offset ++ [⟨k, v, Int.ofNat s.offset, s.total_ticks⟩])
            index := s.index ++ [(k, ⟨k, v, Int.ofNat s.offset, s.total_ticks⟩)] }, none) := by
    rw [Ctb.schedule_with_delay, if_neg (by simp [hlk])]
    rw [if_neg (by omega)]
    simp only [Int.toNat_zero, Nat.add_zero] at htarget ⊢
    rw [if_neg (by omega)]
    simp [htarget]
  have hslot : Ctb.slotAt (Ctb.schedule_with_delay s k v 0).1 s.offset
      = Ctb.slotAt s s.offset ++ [⟨k, v, Int.ofNat s.offset, s.total_ticks⟩] := by
    rw [hsched]
    exact Ctb.slotAt_set_self s _ s.offset _ (hlen ▸ hoff)
  refine ⟨by rw [hsched], by rw [hsched], hslot, ?_⟩
  intro hemp
  rw [Ctb.pop_due_event]
  have : Ctb.slotAt (Ctb.schedule_with_delay s k v 0).1
      (Ctb.schedule_with_delay s k v 0).1.offset
      = [⟨k, v, Int.ofNat s.offset, s.total_ticks⟩] := by
    have hoffeq : (Ctb.schedule_with_delay s k v 0).1.offset = s.offset := by rw [hsched]
    rw [hoffeq, hslot, hemp, List.nil_append]
  rw [this]

/-- Witness for `c9_zero_delay`: the fresh 10-slot wheel, key `"Z"`. -/
theorem c9_zero_delay_witness :
    (Ctb.schedule_with_delay (Ctb.init String String 10) "Z" "vZ" 0).2 = none ∧
    (Ctb.schedule_with_delay (Ctb.init String String 10) "Z" "vZ" 0).1.offset
      = (Ctb.init String String 10).offset ∧
    Ctb.slotAt (Ctb.schedule_with_delay (Ctb.init String String 10) "Z" "vZ" 0).1
        (Ctb.init String String 10).offset
      = Ctb.slotAt (Ctb.init String String 10) (Ctb.init String String 10).offset
        ++ [⟨"Z", "vZ", Int.ofNat (Ctb.init String String 10).offset,
              (Ctb.init String String 10).total_ticks⟩] ∧
    (Ctb.slotAt (Ctb.init String String 10) (Ctb.init String String 10).offset = [] →
      (Ctb.pop_due_event
        (Ctb.schedule_with_delay (Ctb.init String String 10) "Z" "vZ" 0).1).1
        = some ("Z", "vZ")) :=
  c9_zero_delay (Ctb.init String String 10) "Z" "vZ" (by decide) (by decide) (by decide)

/-- **C7.**  Scheduling a fresh key at any delay and cancelling it before
any tick restores the exact original state (so the key is absent from `get`,
`contains` and `len`), and no subsequent sequence of ticks and
`pop_due_event` calls ever returns that key; concretely, scheduling `"D"`
with delay `5` on the fresh wheel, cancelling it, and advancing `5` ticks
makes `pop_due_event` return `none` at that tick. -/
theorem c7_schedule_remove_roundtrip (s : Ctb.IndexedTimeWheel String String)
    (k v : String) (d : Nat)
    (hlen : s.slots.length = s.buffer_size) (hbs : 0 < s.buffer_size)
    (hk : k ∉ (Ctb.allNodes s).map (·.key)) (hlk : idxLookup s.index k = none) :
    Ctb.remove (Ctb.schedule_with_delay s k v (d : Int)).1 k = (some v, s) ∧
    Ctb.containsKey (Ctb.remove (Ctb.schedule_with_delay s k v (d : Int)).1 k).2 k
      = false ∧
    Ctb.get (Ctb.remove (Ctb.schedule_with_delay s k v (d : Int)).1 k).2 k = none ∧
    Ctb.size (Ctb.remove (Ctb.schedule_with_delay s k v (d : Int)).1 k).2
      = Ctb.size s ∧
    (∀ (ops : List Ctb.TPOp) (p : String × String),
      p ∈ (Ctb.runTP (Ctb.remove
        (Ctb.schedule_with_delay s k v (d : Int)).1 k).2 ops).2 → p.1 ≠ k) ∧
    ((Ctb.remove (Ctb.schedule_with_delay
        (Ctb.init String String 10) "D" "vD" 5).1 "D").1 = some "vD" ∧
      (Ctb.pop_due_event (Nat.iterate Ctb.tick 5
        (Ctb.remove (Ctb.schedule_with_delay
          (Ctb.init String String 10) "D" "vD" 5).1 "D").2)).1 = none) := by
  have hst := Ctb.schedule_remove_state s k v d hlen hbs hk hlk
  have hst2 : (Ctb.remove (Ctb.schedule_with_delay s k v (d : Int)).1 k).2 = s :=
    congrArg Prod.snd hst
  refine ⟨hst, ?_, ?_, ?_, ?_, by decide, by decide⟩
  · rw [hst2]
    simp [Ctb.containsKey, hlk]
  · rw [hst2]
    simp [Ctb.get, hlk]
  · rw [hst2]
  · intro ops p hp
    rw [hst2] at hp
    exact Ctb.runTP_no_ghost ops s hk p hp

/-- Witness for `c7_schedule_remove_roundtrip`: the fresh 10-slot wheel with
key `"E"` at overflow delay `12`. -/
theorem c7_schedule_remove_roundtrip_witness :
    Ctb.remove (Ctb.schedule_with_delay
        (Ctb.init String String 10) "E" "vE" ((12 : Nat) : Int)).1 "E"
      = (some "vE", Ctb.init String String 10) ∧
    Ctb.containsKey (Ctb.remove (Ctb.schedule_with_delay
      (Ctb.init String String 10) "E" "vE" ((12 : Nat) : Int)).1 "E").2 "E" = false :=
  ⟨(c7_schedule_remove_roundtrip (Ctb.init String String 10) "E" "vE" 12
      (by decide) (by decide) (by decide) (by decide)).1,
   (c7_schedule_remove_roundtrip (Ctb.init String String 10) "E" "vE" 12
      (by decide) (by decide) (by decide) (by decide)).2.1⟩

/-- **C9 counterexample.**  A zero-delay schedule does land in the current
slot, but the immediately following `pop_due_event` returns the *head* of
that slot's FIFO; scheduling `"Z"` (delay `0`) and then `"K"` (delay `0`,
accepted) makes the immediate pop return `("Z", "vZ")`, not the just
scheduled `("K", "vK")` — so the claim's "returns that (key, value) pair"
fails whenever the current slot was non-empty beforehand. -/
theorem c9_counterexample :
    (Ctb.schedule_with_delay
      (Ctb.schedule_with_delay (Ctb.init String String 10) "Z" "vZ" 0).1 "K" "vK" 0).2
      = none ∧
    (Ctb.pop_due_event (Ctb.schedule_with_delay
      (Ctb.schedule_with_delay (Ctb.init String String 10) "Z" "vZ" 0).1 "K" "vK" 0).1).1
      = some ("Z", "vZ") := by
  decide

end TimeWheelSpec
